import Mathlib

/-!
# Verification of the site-scraper crawl core

Shallow embedding of the crawl orchestration and page-processing pipeline of
the `site-scraper` repository:

* `src/crawler.ts` — `SiteCrawler` (normalizeUrl, shouldCrawl, crawlPage,
  the crawl loop, aggregateTechnologies, buildSiteStructure);
* `src/project-manager.ts` (served inside `src/ui/app.js` here) —
  `loadProjects`, `runProject` and its embedded crawl loop, `normalizeUrl`,
  `shouldCrawl`, `aggregateTechnologies`;
* `src/utils/assets.ts` (served inside `src/utils/logger.ts` here) —
  `sanitizeFilename`, `getUniqueFilename`, `downloadFile`, `downloadAsset`,
  `downloadAssets`.

External collaborators (the Playwright render surface, the raw HTTP
transport, the filesystem and the platform WHATWG `URL` constructor) are
modelled at their interface boundary: pages are an environment
`String → Option PageDataM`, the transport is `String → FetchOutcome`, and
the `URL` constructor is modelled by `parseUrlChars` below, which implements
the WHATWG component split (scheme / host / pathname / search, fragment
dropped) at the fidelity the verified properties need.  Wall-clock values
(load times, timestamps, screenshot filenames embedding `Date.now()`) are
environment-dependent and are not modelled.
-/

namespace SiteScraper

/-! ## URL model

The TypeScript code relies on the platform `new URL(...)` parser.
`UrlParts` mirrors the components the repository reads: `protocol`
(stored here without the trailing `:`), `host` (authority, possibly with a
port), `pathname` and `search`.  `parseUrlChars` models the WHATWG parse:
the scheme is cut at the first `:` and must be a nonempty run of scheme
characters; for the special schemes `http`/`https` any run of slashes after
the colon is skipped and a nonempty authority is required, and an empty path
serializes as `/`; for other schemes either a `//`-authority form or an
opaque path is accepted.  Scheme and host are lowercased.  The fragment is
dropped, and a lone `?` serializes as an empty search, as in WHATWG. -/

structure UrlParts where
  scheme : List Char
  host : List Char
  pathname : List Char
  search : List Char
  deriving Repr, DecidableEq

/-- ASCII lowercasing, as the WHATWG parser applies to scheme and host. -/
def lowerChar (c : Char) : Char :=
  if 'A' ≤ c ∧ c ≤ 'Z' then Char.ofNat (c.toNat + 32) else c

/-- Characters legal in a URL scheme. -/
def isSchemeChar (c : Char) : Bool :=
  c.isAlphanum || c = '+' || c = '-' || c = '.'

/-- The special schemes the repository actually meets; WHATWG treats them
with the slash-skipping authority parse. -/
def isSpecialScheme (s : List Char) : Bool :=
  s = "http".toList || s = "https".toList

/-- Authority characters: everything up to the first `/`, `?` or `#`. -/
def isAuthorityChar (c : Char) : Bool :=
  c ≠ '/' && c ≠ '?' && c ≠ '#'

/-- Path characters: everything up to the first `?` or `#`. -/
def isPathChar (c : Char) : Bool :=
  c ≠ '?' && c ≠ '#'

/-- `String.startsWith`, re-expressed over character lists so that proofs
can evaluate it. -/
def strStartsWith (s pre : String) : Bool :=
  List.isPrefixOf pre.toList s.toList

/-- Model of the platform `new URL(url)` component split (absolute URLs). -/
def parseUrlChars (s : List Char) : Option UrlParts :=
  let schemeRaw := s.takeWhile (fun c => c ≠ ':')
  if schemeRaw = [] ∨ ¬ (schemeRaw.all isSchemeChar) then none
  else
    match s.dropWhile (fun c => c ≠ ':') with
    | ':' :: r =>
      let scheme := schemeRaw.map lowerChar
      if isSpecialScheme scheme then
        let r' := r.dropWhile (fun c => c = '/')
        let auth := r'.takeWhile isAuthorityChar
        if auth = [] then none
        else
          let rest1 := r'.dropWhile isAuthorityChar
          let path := rest1.takeWhile isPathChar
          let rest2 := rest1.dropWhile isPathChar
          let search := rest2.takeWhile (fun c => c ≠ '#')
          some { scheme := scheme
                 host := auth.map lowerChar
                 pathname := if path = [] then ['/'] else path
                 search := if search = ['?'] then [] else search }
      else
        match r with
        | '/' :: '/' :: r' =>
          let auth := r'.takeWhile isAuthorityChar
          let rest1 := r'.dropWhile isAuthorityChar
          let path := rest1.takeWhile isPathChar
          let rest2 := rest1.dropWhile isPathChar
          let search := rest2.takeWhile (fun c => c ≠ '#')
          some { scheme := scheme
                 host := auth.map lowerChar
                 pathname := path
                 search := if search = ['?'] then [] else search }
        | _ =>
          let path := r.takeWhile isPathChar
          let rest2 := r.dropWhile isPathChar
          let search := rest2.takeWhile (fun c => c ≠ '#')
          some { scheme := scheme
                 host := []
                 pathname := path
                 search := if search = ['?'] then [] else search }
    | _ => none

/-- `normalizeUrl` of `src/crawler.ts` (identical to the copy in the
project manager): build `protocol//host + pathname`, strip one trailing
slash unless the result is the bare-host root, then append the search.
An unparsable string is returned unchanged (the `catch` branch). -/
def normalizeUrlChars (s : List Char) : List Char :=
  match parseUrlChars s with
  | none => s
  | some p =>
    let base := p.scheme ++ (':' :: '/' :: '/' :: []) ++ p.host ++ p.pathname
    let root := p.scheme ++ (':' :: '/' :: '/' :: []) ++ p.host ++ ['/']
    let base' := if base.getLast? = some '/' ∧ base ≠ root then base.dropLast else base
    base' ++ p.search

/-- String-level wrapper of `normalizeUrl`. -/
def normalizeUrl (s : String) : String :=
  (normalizeUrlChars s.toList).asString

/-- `new URL(u).hostname`: the host with any `:port` suffix removed. -/
def hostnameOfParts (p : UrlParts) : List Char :=
  p.host.takeWhile (fun c => c ≠ ':')

/-- `new URL(u).hostname` for a raw string, `none` when parsing throws. -/
def hostnameOf (s : String) : Option (List Char) :=
  (parseUrlChars s.toList).map hostnameOfParts

example : normalizeUrl "https://x.com/a/" = "https://x.com/a" := by decide
example : normalizeUrl "https://x.com/a" = "https://x.com/a" := by decide
example : normalizeUrl "https://x.com/" = "https://x.com/" := by decide
example : normalizeUrl "https://x.com/a//" = "https://x.com/a/" := by decide
example : normalizeUrl "https://x.com/a?b=1#frag" = "https://x.com/a?b=1" := by decide

/-! ## Page data model

`LinkM`, `TechInfo` and `PageDataM` mirror `LinkInfo`, `TechnologyInfo` and
the extractor-produced part of `PageData` from `src/types.ts`.  Confidence
is the string union `'high' | 'medium' | 'low'`.  A loaded page is what
`page.goto` + `extractPageData` deliver; the render surface is the
environment `PageEnv`: `none` models any exception thrown inside the `try`
block of a page's processing (navigation timeout, extraction failure, …).
Wall-clock fields (`loadTime`, `scrapedAt`, `screenshotPath`) are
environment-dependent and not modelled. -/

structure LinkM where
  text : String
  href : String
  isInternal : Bool
  deriving Repr, DecidableEq

structure TechInfo where
  name : String
  version : Option String
  category : String
  confidence : String
  deriving Repr, DecidableEq

/-- Data extracted from a successfully loaded page, as produced by
`extractPageData`; `statusCode` is the raw `response?.status()` value
(`0` standing for a missing response, defaulted by `|| 200` below). -/
structure PageDataM where
  title : String
  textContent : String
  links : List LinkM
  images : List String
  technologies : List TechInfo
  statusCode : Nat
  deriving Repr, DecidableEq

/-- The render surface: what loading + extracting a URL yields. -/
def PageEnv := String → Option PageDataM

/-- One `PageData` record as appended to the run's page list. -/
structure PageRecord where
  url : String
  title : String
  textContent : String
  links : List LinkM
  images : List String
  technologies : List TechInfo
  statusCode : Nat
  deriving Repr, DecidableEq

/-- The record built on the success path of `crawlPage` / the project loop:
`statusCode = response?.status() || 200`. -/
def mkRecord (url : String) (pd : PageDataM) : PageRecord :=
  { url := url
    title := pd.title
    textContent := pd.textContent
    links := pd.links
    images := pd.images
    technologies := pd.technologies
    statusCode := if pd.statusCode = 0 then 200 else pd.statusCode }

/-- The degraded record returned by `crawlPage`'s `catch` branch in
`src/crawler.ts`: every field empty and `statusCode: 0` (`loadTime`, a
wall-clock value, is not modelled). -/
def degradedRecord (url : String) : PageRecord :=
  { url := url
    title := ""
    textContent := ""
    links := []
    images := []
    technologies := []
    statusCode := 0 }

/-! ## shouldCrawl -/

/-- The binary/asset extension skip-list of `shouldCrawl`. -/
def skipExtensions : List (List Char) :=
  [".pdf".toList, ".zip".toList, ".jpg".toList, ".jpeg".toList,
   ".png".toList, ".gif".toList, ".svg".toList, ".css".toList,
   ".js".toList, ".mp4".toList, ".webm".toList, ".mp3".toList]

/-- `shouldCrawl(url)` from `src/crawler.ts` (and its identical project
variant): internal hostname, no skipped extension (on the lowercased
pathname), not already visited; any `URL` parse failure yields `false`. -/
def shouldCrawl (baseUrl : String) (visited : Finset String) (url : String) : Bool :=
  match parseUrlChars baseUrl.toList, parseUrlChars url.toList with
  | some bp, some up =>
    if hostnameOfParts up ≠ hostnameOfParts bp then false
    else if skipExtensions.any (fun ext => ext.isSuffixOf (up.pathname.map lowerChar)) then false
    else if normalizeUrl url ∈ visited then false
    else true
  | _, _ => false

/-! ## Technology aggregation

`aggregateTechnologies` appears verbatim in both `src/crawler.ts` and the
project manager.  The JS `Map` is modelled as an insertion-ordered
association list: `techMapSet` overwrites in place (preserving the original
position, as `Map.set` on an existing key does) or appends. -/

/-- `Map.set` on an insertion-ordered association list. -/
def techMapSet (m : List (String × TechInfo)) (k : String) (v : TechInfo) :
    List (String × TechInfo) :=
  if m.any (fun p => p.1 = k) then
    m.map (fun p => if p.1 = k then (k, v) else p)
  else m ++ [(k, v)]

/-- The body of the double loop: `if (!existing || tech.confidence === 'high')
techMap.set(tech.name, tech)`. -/
def techFoldStep (m : List (String × TechInfo)) (t : TechInfo) :
    List (String × TechInfo) :=
  if (m.find? (fun p => p.1 = t.name)).isNone ∨ t.confidence = "high" then
    techMapSet m t.name t
  else m

/-- `aggregateTechnologies(pages)`: fold every page's technologies through
the map, then return the values in insertion order. -/
def aggregateTechnologies (pages : List PageRecord) : List TechInfo :=
  (pages.foldl (fun m page => page.technologies.foldl techFoldStep m) []).map
    (fun p => p.2)

/-! ## Site structure -/

structure StructureEntry where
  url : String
  title : String
  children : List String
  deriving Repr, DecidableEq

/-- `buildSiteStructure(pages)`: per page, the deduplicated internal link
targets (`[...new Set(children)]`). -/
def buildSiteStructure (pages : List PageRecord) : List StructureEntry :=
  pages.map (fun page =>
    { url := page.url
      title := page.title
      children := ((page.links.filter (fun l => l.isInternal)).map
        (fun l => l.href)).dedup })

structure SiteReportM where
  baseUrl : String
  totalPages : Nat
  pages : List PageRecord
  technologies : List TechInfo
  siteStructure : List StructureEntry
  deriving Repr, DecidableEq

/-! ## The SiteCrawler crawl loop (`src/crawler.ts`)

State: the visited set (`Set<string>` of normalized URLs, modelled as a
`Finset`), the frontier `urlsToVisit` and the collected `pages`.  One-shot
CLI crawls own one such state per run.  The loop is written with explicit
fuel; `crawlLoop … = none` means the fuel ran out before the `while`
condition failed, and the termination theorem shows a computable bound on
the fuel needed. -/

structure CrawlConfig where
  baseUrl : String
  maxPages : Nat
  deriving Repr, DecidableEq

structure CrawlState where
  visitedUrls : Finset String
  urlsToVisit : List String
  pages : List PageRecord
  deriving DecidableEq

/-- The enqueue loop: `if (!this.urlsToVisit.includes(link)) push(link)`. -/
def pushNew (f : List String) (ls : List String) : List String :=
  ls.foldl (fun acc l => if acc.contains l then acc else acc ++ [l]) f

/-- The links a processed page queues for crawling: the internal ones that
pass `shouldCrawl` against the visited set that already contains the
current page's fingerprint (marked *before* processing). -/
def linksToCrawl (baseUrl : String) (visited' : Finset String) (pd : PageDataM) :
    List String :=
  (pd.links.filter (fun l => l.isInternal && shouldCrawl baseUrl visited' l.href)).map
    (fun l => l.href)

/-- One iteration of the crawl `while` loop, given the dequeued URL `u` and
the remaining frontier `rest`: this is `crawlPage` (visited check, marking,
processing, link enqueueing) plus the `pages.push` in `crawl`. -/
def crawlIter (env : PageEnv) (cfg : CrawlConfig) (s : CrawlState)
    (u : String) (rest : List String) : CrawlState :=
  if normalizeUrl u ∈ s.visitedUrls then
    { s with urlsToVisit := rest }
  else
    match env u with
    | none =>
      { visitedUrls := insert (normalizeUrl u) s.visitedUrls
        urlsToVisit := rest
        pages := s.pages ++ [degradedRecord u] }
    | some pd =>
      { visitedUrls := insert (normalizeUrl u) s.visitedUrls
        urlsToVisit := pushNew rest
          (linksToCrawl cfg.baseUrl (insert (normalizeUrl u) s.visitedUrls) pd)
        pages := s.pages ++ [mkRecord u pd] }

/-- The `while` condition has failed: frontier empty, or the page budget
(`maxPages === 0` meaning unlimited) is exhausted. -/
def crawlDone (cfg : CrawlConfig) (s : CrawlState) : Bool :=
  s.urlsToVisit.isEmpty || !(cfg.maxPages = 0 || s.pages.length < cfg.maxPages)

/-- The crawl `while` loop with fuel. -/
def crawlLoop (env : PageEnv) (cfg : CrawlConfig) :
    Nat → CrawlState → Option CrawlState
  | 0, s => if crawlDone cfg s then some s else none
  | fuel + 1, s =>
    if crawlDone cfg s then some s
    else
      match s.urlsToVisit with
      | [] => some s
      | u :: rest => crawlLoop env cfg fuel (crawlIter env cfg s u rest)

/-- Initial crawl state: frontier seeded with the base URL. -/
def crawlInit (cfg : CrawlConfig) : CrawlState :=
  { visitedUrls := ∅, urlsToVisit := [cfg.baseUrl], pages := [] }

/-- `SiteCrawler.crawl`: run the loop, then assemble the report. -/
def crawlModel (env : PageEnv) (cfg : CrawlConfig) (fuel : Nat) :
    Option SiteReportM :=
  (crawlLoop env cfg fuel (crawlInit cfg)).map (fun s =>
    { baseUrl := cfg.baseUrl
      totalPages := s.pages.length
      pages := s.pages
      technologies := aggregateTechnologies s.pages
      siteStructure := buildSiteStructure s.pages })

/-! ## Projects (`project-manager.ts`)

A `Project` is a persisted crawl configuration plus mutable run state.
Only the claim-relevant fields are carried; the status union
`'idle' | 'running' | 'completed' | 'failed'` becomes `ProjStatus`. -/

inductive ProjStatus
  | idle
  | running
  | completed
  | failed
  deriving Repr, DecidableEq

structure ProjectM where
  id : String
  name : String
  urls : List String
  maxPages : Option Nat
  delay : Option Nat
  downloadAssets : Bool
  downloadImages : Option Bool
  status : ProjStatus
  progress : Int
  error : Option String
  lastRun : Option String
  deriving Repr, DecidableEq

/-- The crash-recovery rewrite applied to each stored project inside
`loadProjects`: a project persisted as `running` is reset to `idle` with
progress `0`; every other project is left untouched. -/
def resetCrashedProject (p : ProjectM) : ProjectM :=
  if p.status = ProjStatus.running then
    { p with status := ProjStatus.idle, progress := 0 }
  else p

/-- `loadProjects`: the store read back from `projects.json`
(`Object.entries` order preserved by the `Map`), with the crash-recovery
rewrite applied entry by entry.  The filesystem read and the
`catch`-to-empty-store branch are external and not modelled. -/
def loadProjectsModel (entries : List (String × ProjectM)) :
    List (String × ProjectM) :=
  entries.map (fun e => (e.1, resetCrashedProject e.2))

/-! ## The project run (`runProject`)

The run shares one visited set and one page list across all seed URLs.
Observable behavior is traced: `events` records every `progressCallback`
invocation (progress value and status string; the detail payload and the
exact message text are environment-dependent and abbreviated), and
`stored` records the `project.progress` value at every `saveProjects`
call.  `env.pages u = none` models any exception inside the per-URL `try`
(whose `catch` only logs).  `env.assetSuccess` tells which image downloads
succeed (the per-asset callback only fires for results carrying a
`localPath`, i.e. successes). -/

structure ProjEnv where
  pages : PageEnv
  assetSuccess : String → Bool

structure EventM where
  progress : Int
  status : String
  deriving Repr, DecidableEq

structure RunState where
  visitedUrls : Finset String
  allPages : List PageRecord
  progress : Int
  events : List EventM
  stored : List Int
  deriving DecidableEq

/-- `Math.round` on an exact nonnegative fraction `n / d`: JS rounds half
up, i.e. `floor(n/d + 1/2) = (2n + d) / (2d)` in integer division.  The
`d = 0` guard is unreachable in the modelled call sites. -/
def roundHalfUp (n d : Nat) : Nat :=
  if d = 0 then 0 else (2 * n + d) / (2 * d)

/-- The progress formula of `runProject`:
`Math.min(Math.round(baseProgress + urlProgress), 99)` with
`baseProgress = (processedUrls / totalUrls) * 100` and
`urlProgress = maxPages > 0 ? (pageCount / maxPages) * (100 / totalUrls) : 0`.
Only evaluated with `totalUrls > 0` (inside the loop over seeds); the sum
is carried as the exact fraction over the common denominator
`maxPages * totalUrls` (the JS engine computes in doubles; the exact
rational value is the modelled semantics). -/
def progressUpdate (processedUrls totalUrls pageCount maxPages : Nat) : Int :=
  let r :=
    if 0 < maxPages then
      roundHalfUp (processedUrls * 100 * maxPages + pageCount * 100)
        (maxPages * totalUrls)
    else roundHalfUp (processedUrls * 100) totalUrls
  Int.ofNat (min r 99)

/-- The progress events `downloadPageAssets` emits for one page: the
initial "Downloading images: N found" notification, then one event per
result carrying a `localPath` (successes); every one reports the current
`project.progress`.  Empty when asset downloading is off
(`project.downloadAssets && project.downloadImages !== false`) or the page
has no downloadable (non-`data:`) image sources. -/
def assetEventsFor (env : ProjEnv) (proj : ProjectM) (progress : Int)
    (pd : PageDataM) : List EventM :=
  let imageUrls := pd.images.filter (fun src => src ≠ "" && !(strStartsWith src "data:"))
  if proj.downloadAssets && proj.downloadImages ≠ some false && !imageUrls.isEmpty then
    { progress := progress, status := "Downloading images" } ::
      (imageUrls.filter env.assetSuccess).map (fun img =>
        { progress := progress, status := "Downloaded: " ++ img })
  else []

/-- The state after one successful page of the project loop: the visited
set already extended, the record pushed, progress recomputed and persisted,
and the screenshot / asset / page-complete events appended in emission
order. -/
def projSuccessState (env : ProjEnv) (proj : ProjectM)
    (totalUrls processedUrls maxPages pageCount' : Nat) (st : RunState)
    (u : String) (pd : PageDataM) : RunState :=
  { visitedUrls := insert (normalizeUrl u) st.visitedUrls
    allPages := st.allPages ++ [mkRecord u pd]
    progress := progressUpdate processedUrls totalUrls pageCount' maxPages
    events := st.events ++ [{ progress := st.progress, status := "Screenshot: " ++ u }]
      ++ assetEventsFor env proj st.progress pd
      ++ [{ progress := progressUpdate processedUrls totalUrls pageCount' maxPages
            status := "Scraped: " ++ u }]
    stored := st.stored ++ [progressUpdate processedUrls totalUrls pageCount' maxPages] }

/-- The inner `while` loop of `runProject` for one seed URL `b`, with fuel.
Fuel exhaustion stops early with the state reached so far. -/
def projInner (env : ProjEnv) (proj : ProjectM) (b : String)
    (totalUrls processedUrls maxPages : Nat) :
    Nat → List String → Nat → RunState → RunState × Nat
  | 0, _, pageCount, st => (st, pageCount)
  | fuel + 1, frontier, pageCount, st =>
    if frontier.isEmpty || !(maxPages = 0 || pageCount < maxPages) then (st, pageCount)
    else
      match frontier with
      | [] => (st, pageCount)
      | u :: rest =>
        if normalizeUrl u ∈ st.visitedUrls then
          projInner env proj b totalUrls processedUrls maxPages fuel rest pageCount st
        else
          match env.pages u with
          | none =>
            projInner env proj b totalUrls processedUrls maxPages fuel rest pageCount
              { st with visitedUrls := insert (normalizeUrl u) st.visitedUrls }
          | some pd =>
            projInner env proj b totalUrls processedUrls maxPages fuel
              (pushNew rest (linksToCrawl b (insert (normalizeUrl u) st.visitedUrls) pd))
              (pageCount + 1)
              (projSuccessState env proj totalUrls processedUrls maxPages
                (pageCount + 1) st u pd)

/-- The outer `for (const baseUrl of project.urls)` loop: each seed gets a
fresh frontier `[baseUrl]` and a fresh `pageCount`, but state (visited set,
page list, progress, traces) is shared. -/
def projOuter (env : ProjEnv) (proj : ProjectM) (totalUrls fuel : Nat) :
    List String → Nat → RunState → RunState
  | [], _, st => st
  | b :: bs, processedUrls, st =>
    let maxPages := proj.maxPages.getD 50
    let st' := (projInner env proj b totalUrls processedUrls maxPages fuel [b] 0 st).1
    projOuter env proj totalUrls fuel bs (processedUrls + 1) st'

structure RunResult where
  project : ProjectM
  report : SiteReportM
  events : List EventM
  stored : List Int
  deriving DecidableEq

/-- `runProject` (success path): set `running`/`progress 0` and persist,
crawl every seed, assemble and persist the report, set
`completed`/`progress 100`, then emit the terminal `Completed` event with
`100`.  The `catch` path (browser-launch or filesystem failure) is an
external-failure branch outside this pure model. -/
def runProjectModel (env : ProjEnv) (proj0 : ProjectM) (fuel : Nat) : RunResult :=
  let proj : ProjectM :=
    { proj0 with status := ProjStatus.running, progress := 0, error := none }
  let st0 : RunState :=
    { visitedUrls := ∅, allPages := [], progress := 0, events := [], stored := [0] }
  let stF := projOuter env proj proj.urls.length fuel proj.urls 0 st0
  let report : SiteReportM :=
    { baseUrl := proj.urls.headD ""
      totalPages := stF.allPages.length
      pages := stF.allPages
      technologies := aggregateTechnologies stF.allPages
      siteStructure := buildSiteStructure stF.allPages }
  let projF : ProjectM :=
    { proj with status := ProjStatus.completed, progress := 100 }
  { project := projF
    report := report
    events := stF.events ++ [{ progress := 100, status := "Completed" }]
    stored := stF.stored ++ [100] }

/-! ## Asset downloader (`src/utils/assets.ts`)

The HTTP(S) transport is the environment `fetch : String → FetchOutcome`;
a response carries the status code, the `Location` header, the parsed
`Content-Length` header and the body as a list of chunk lengths.
`downloadFile`'s redirect recursion is written with fuel: `none` means the
redirect chain outran the fuel (for a redirect cycle this holds for every
fuel, i.e. the real function never returns). -/

structure HttpResponseM where
  statusCode : Nat
  location : Option String
  contentLength : Option Nat
  chunks : List Nat
  deriving Repr, DecidableEq

inductive FetchOutcome
  | response (r : HttpResponseM)
  | timeout
  | netError (msg : String)
  deriving Repr, DecidableEq

/-- The streaming loop: add each chunk to the running byte counter and
abort with `File too large` the moment the counter exceeds `maxSize`;
at `end`, the concatenated buffer's length is resolved. -/
def streamChunks (maxSize : Nat) : List Nat → Nat → Except String Nat
  | [], acc => Except.ok acc
  | c :: rest, acc =>
    if acc + c > maxSize then
      Except.error ("File too large: exceeded " ++ toString maxSize ++ " bytes")
    else streamChunks maxSize rest (acc + c)

/-- The non-redirect tail of `downloadFile`: non-200 rejection,
`Content-Length` pre-check, then streaming. -/
def downloadBody (maxSize : Nat) (r : HttpResponseM) : Except String Nat :=
  if r.statusCode ≠ 200 then Except.error ("HTTP " ++ toString r.statusCode)
  else if r.contentLength.getD 0 > maxSize then
    Except.error ("File too large: " ++ toString (r.contentLength.getD 0) ++
      " bytes (max: " ++ toString maxSize ++ ")")
  else streamChunks maxSize r.chunks 0

instance : DecidableEq (Except String Nat) := fun x y =>
  match x, y with
  | Except.ok a, Except.ok b =>
    if h : a = b then isTrue (by rw [h])
    else isFalse (fun hh => by cases hh; exact h rfl)
  | Except.error a, Except.error b =>
    if h : a = b then isTrue (by rw [h])
    else isFalse (fun hh => by cases hh; exact h rfl)
  | Except.ok _, Except.error _ => isFalse (fun hh => by cases hh)
  | Except.error _, Except.ok _ => isFalse (fun hh => by cases hh)

/-- What one `httpModule.get` round of `downloadFile` decides: either a
final outcome, or a re-issue at a redirect target. -/
inductive FetchStep
  | done (r : Except String Nat)
  | redirect (loc : String)
  deriving Repr, DecidableEq

/-- The response callback of `downloadFile`: a 301/302 carrying `Location`
re-issues the request there; a 301/302 without `Location` falls through to
the `HTTP <code>` rejection; otherwise status check, `Content-Length`
check and streaming. -/
def downloadStep (fetch : String → FetchOutcome) (timeout maxSize : Nat)
    (url : String) : FetchStep :=
  match fetch url with
  | FetchOutcome.timeout =>
    FetchStep.done (Except.error ("Download timed out after " ++ toString timeout ++ "ms"))
  | FetchOutcome.netError m => FetchStep.done (Except.error m)
  | FetchOutcome.response r =>
    if r.statusCode = 301 ∨ r.statusCode = 302 then
      match r.location with
      | some loc => FetchStep.redirect loc
      | none => FetchStep.done (downloadBody maxSize r)
    else FetchStep.done (downloadBody maxSize r)

/-- `downloadFile(url, destPath, timeout, maxSize)`: each redirect hop
re-issues the whole call at the `Location` target (the recursion under
scrutiny in the redirect claims).  Fuel bounds the chain length followed;
`none` means the chain outran the fuel. -/
def downloadFile (fetch : String → FetchOutcome) (timeout maxSize : Nat) :
    Nat → String → Option (Except String Nat)
  | 0, url =>
    match downloadStep fetch timeout maxSize url with
    | FetchStep.done r => some r
    | FetchStep.redirect _ => none
  | fuel + 1, url =>
    match downloadStep fetch timeout maxSize url with
    | FetchStep.done r => some r
    | FetchStep.redirect loc => downloadFile fetch timeout maxSize fuel loc

/-- `downloadFile` at `url` never returns, whatever the fuel: the model's
rendering of an infinite redirect chain. -/
def downloadFileDiverges (fetch : String → FetchOutcome) (timeout maxSize : Nat)
    (url : String) : Prop :=
  ∀ fuel, downloadFile fetch timeout maxSize fuel url = none

/-! ### sanitizeFilename and getUniqueFilename -/

/-- The characters `sanitizeFilename` replaces with `_`. -/
def isInvalidFileChar (c : Char) : Bool :=
  c = '<' || c = '>' || c = ':' || c = '"' || c = '/' || c = '\\' ||
  c = '|' || c = '?' || c = '*' || c.toNat ≤ 0x1f

/-- `path.extname`: the suffix from the last `.` of the basename, empty
when there is no dot or the only dot is the leading character. -/
def extnameChars (name : List Char) : List Char :=
  let revTail := name.reverse.takeWhile (fun c => c ≠ '.')
  if revTail.length = name.length then []
  else if name.length - revTail.length - 1 = 0 then []
  else '.' :: revTail.reverse

/-- `sanitizeFilename`: last path segment (`'unnamed'` when empty), query
and hash stripped, invalid characters replaced, length capped at 200
keeping the extension, `'unnamed'` when everything vanished. -/
def sanitizeFilename (filename : String) : String :=
  let seg := (filename.toList.reverse.takeWhile (fun c => c ≠ '/')).reverse
  let seg := if seg = [] then "unnamed".toList else seg
  let seg := seg.takeWhile (fun c => c ≠ '?')
  let seg := seg.takeWhile (fun c => c ≠ '#')
  let seg := seg.map (fun c => if isInvalidFileChar c then '_' else c)
  let seg :=
    if 200 < seg.length then
      let ext := extnameChars seg
      seg.take (200 - ext.length) ++ ext
    else seg
  if seg = [] then "unnamed" else seg.asString

/-- Candidate filenames tried by `getUniqueFilename`: the raw name, then
`base_1.ext`, `base_2.ext`, …. -/
def uniqueCandidate (filename : String) (k : Nat) : String :=
  if k = 0 then filename
  else
    let ext := extnameChars filename.toList
    let base := filename.toList.take (filename.toList.length - ext.length)
    (base ++ ('_' :: (toString k).toList) ++ ext).asString

/-- `getUniqueFilename(dir, filename)`: the `while fs.existsSync` loop,
rendered totally against a snapshot `files` of the directory: the first
candidate not already present.  Since the `files.length + 1` candidates are
pairwise distinct, one of them is always free and the `getD` default is
unreachable. -/
def getUniqueFilename (files : List String) (filename : String) : String :=
  ((((List.range (files.length + 1)).map (uniqueCandidate filename)).find?
    (fun c => !files.contains c))).getD filename

/-! ### downloadAsset and downloadAssets -/

structure AssetDownloadResult where
  url : String
  localPath : Option String
  success : Bool
  error : Option String
  size : Option Nat
  deriving Repr, DecidableEq

structure AssetOptions where
  timeout : Nat := 5000
  maxSize : Nat := 10 * 1024 * 1024
  baseUrl : Option String := none
  deriving Repr, DecidableEq

/-- The transport plus the two platform facilities `downloadAsset` uses:
relative-reference resolution (`new URL(url, baseUrl).href`, `none` when
the constructor throws) and the destination-directory snapshot consulted
by `fs.existsSync`. -/
structure AssetEnv where
  fetch : String → FetchOutcome
  resolveRef : String → String → Option String
  files : List String

/-- The URL-resolution ladder at the top of `downloadAsset`; `none` models
a thrown `Invalid URL` (caught by the surrounding `try`). -/
def resolveAssetUrl (env : AssetEnv) (opts : AssetOptions) (url : String) :
    Option String :=
  if strStartsWith url "//" then some ("https:" ++ url)
  else if strStartsWith url "/" && opts.baseUrl.isSome then
    match opts.baseUrl with
    | some b =>
      match parseUrlChars b.toList with
      | some bp =>
        some ((bp.scheme ++ (':' :: '/' :: '/' :: []) ++ bp.host).asString ++ url)
      | none => none
    | none => none
  else if !(strStartsWith url "http") && opts.baseUrl.isSome then
    match opts.baseUrl with
    | some b => env.resolveRef url b
    | none => none
  else some url

/-- `downloadAsset`: resolve the URL, skip data URLs, validate, compute
the local filename, download; every failure is returned as a
`success := false` result with an error message (the function's `catch`
converts any thrown error into such a result — `"Invalid URL"` is the
platform message for an unparsable URL).  The result is `none` only when
`downloadFile` never returns (infinite redirect chain). -/
def downloadAssetModel (env : AssetEnv) (opts : AssetOptions) (destDir : String)
    (fuel : Nat) (url : String) : Option AssetDownloadResult :=
  match resolveAssetUrl env opts url with
  | none =>
    some { url := url, localPath := none, success := false
           error := some "Invalid URL", size := none }
  | some resolvedUrl =>
    if strStartsWith resolvedUrl "data:" then
      some { url := url, localPath := none, success := false
             error := some "Skipped data URL (embedded content)", size := none }
    else
      match parseUrlChars resolvedUrl.toList with
      | none =>
        some { url := url, localPath := none, success := false
               error := some "Invalid URL", size := none }
      | some parsed =>
        let rawFilename := sanitizeFilename parsed.pathname.asString
        let filename := getUniqueFilename env.files rawFilename
        let localPath := destDir ++ "/" ++ filename
        match downloadFile env.fetch opts.timeout opts.maxSize fuel resolvedUrl with
        | none => none
        | some (Except.ok size) =>
          some { url := url, localPath := some localPath, success := true
                 error := none, size := some size }
        | some (Except.error e) =>
          some { url := url, localPath := none, success := false
                 error := some e, size := none }

/-- `Promise.all` over the model: the whole batch settles exactly when
every member does. -/
def promiseAll {α : Type} : List (Option α) → Option (List α)
  | [] => some []
  | Option.none :: _ => none
  | Option.some a :: rest => (promiseAll rest).map (fun l => a :: l)

/-- The sequential-batch loop of `downloadAssets`: take a batch of
`conc` URLs (`urls.slice(i, i + concurrency)`), download them all
(`Promise.all(batch.map(...))`), then push each result and fire
`onProgress(completed, total, result)` with the running counter, before
the next batch.  Returns the result list and the callback trace; `none`
if any single download never returns. -/
def downloadAssetsGo (env : AssetEnv) (opts : AssetOptions) (destDir : String)
    (fuel total conc : Nat) :
    List String → Nat → Option (List AssetDownloadResult × List (Nat × Nat × AssetDownloadResult))
  | [], _ => some ([], [])
  | u :: rest, completed =>
    let batch := u :: rest.take (conc - 1)
    let after := rest.drop (conc - 1)
    match promiseAll (batch.map (downloadAssetModel env opts destDir fuel)) with
    | none => none
    | some brs =>
      let trace := brs.enum.map (fun p => (completed + p.1 + 1, total, p.2))
      match downloadAssetsGo env opts destDir fuel total conc after (completed + brs.length) with
      | none => none
      | some (rs, tr) => some (brs ++ rs, trace ++ tr)
  termination_by l _ => l.length
  decreasing_by simp [List.length_drop]; omega

/-- `downloadAssets(urls, destDir, options)` with the default concurrency
of 5 supplied by the caller. -/
def downloadAssetsModel (env : AssetEnv) (opts : AssetOptions) (destDir : String)
    (conc fuel : Nat) (urls : List String) :
    Option (List AssetDownloadResult × List (Nat × Nat × AssetDownloadResult)) :=
  downloadAssetsGo env opts destDir fuel urls.length conc urls 0

/-! ## Spec-level predicates -/

/-- The normalized URLs of the collected page records are pairwise
distinct and all registered in the visited set: the invariant behind the
visited-set claims. -/
def PagesNormClean (visited : Finset String) (pages : List PageRecord) : Prop :=
  (pages.map (fun p => normalizeUrl p.url)).Nodup ∧
    ∀ p ∈ pages, normalizeUrl p.url ∈ visited

/-- `u` is the seed `b` itself, or parses with the same hostname as `b`:
the scope `shouldCrawl` enforces for everything enqueued under seed `b`. -/
def sameHostAs (b u : String) : Prop :=
  u = b ∨ ∃ h, hostnameOf b = some h ∧ hostnameOf u = some h

/-- All progress values recorded in a mid-run state lie in `[0, 99]`. -/
def RunStateClamped (st : RunState) : Prop :=
  (0 ≤ st.progress ∧ st.progress ≤ 99) ∧
    (∀ e ∈ st.events, 0 ≤ e.progress ∧ e.progress ≤ 99) ∧
    (∀ v ∈ st.stored, 0 ≤ v ∧ v ≤ 99)

/-- The last `high`-confidence observation of name `n`, if any. -/
def lastHigh (obs : List TechInfo) (n : String) : Option TechInfo :=
  (obs.filter (fun t => t.name = n && t.confidence = "high")).getLast?

/-- The first observation of name `n`, if any. -/
def firstObs (obs : List TechInfo) (n : String) : Option TechInfo :=
  (obs.filter (fun t => t.name = n)).head?

/-- The merge rule the aggregation actually implements, per name: the last
`high`-confidence observation wins; with no `high` observation, the first
observation is kept. -/
def entryFor (obs : List TechInfo) (n : String) : Option TechInfo :=
  match lastHigh obs n with
  | some t => some t
  | none => firstObs obs n

/-- All technology observations of a page list, in processing order. -/
def obsOf (pages : List PageRecord) : List TechInfo :=
  pages.flatMap (fun p => p.technologies)

/-- The condition under which `normalizeUrl` is proved idempotent: the
string does not parse at all (and is returned verbatim), or it is an
`http(s)` URL whose path does not end in a double slash. -/
def idemSafe (s : String) : Bool :=
  match parseUrlChars s.toList with
  | none => true
  | some p => isSpecialScheme p.scheme && !(['/', '/'].isSuffixOf p.pathname)

/-! ## Concrete fixtures for witnesses and counterexamples -/

def pageOf (links : List LinkM) (techs : List TechInfo) (status : Nat) : PageDataM :=
  { title := "t", textContent := "x", links := links, images := [],
    technologies := techs, statusCode := status }

def linkTo (h : String) (int : Bool) : LinkM :=
  { text := "", href := h, isInternal := int }

/-- A three-page site under one host, with a link back to the root and a
skipped `.png` link: the happy-path crawl fixture. -/
def envA : PageEnv := fun u =>
  if u = "https://e.com/" then
    some (pageOf [linkTo "https://e.com/p1" true, linkTo "https://e.com/p2" true,
      linkTo "https://x.org/out" false, linkTo "https://e.com/img.png" true] [] 200)
  else if u = "https://e.com/p1" then
    some (pageOf [linkTo "https://e.com/" true] [] 0)
  else if u = "https://e.com/p2" then some (pageOf [] [] 404)
  else none

def cfgA : CrawlConfig := { baseUrl := "https://e.com/", maxPages := 0 }

def cfgB : CrawlConfig := { baseUrl := "https://e.com/", maxPages := 2 }

/-- The universe of URLs `envA` can ever mention. -/
def uniA : Finset String :=
  {"https://e.com/", "https://e.com/p1", "https://e.com/p2",
   "https://x.org/out", "https://e.com/img.png"}

/-- A render surface on which every navigation fails. -/
def envFail : PageEnv := fun _ => none

def projEnvFail : ProjEnv := { pages := envFail, assetSuccess := fun _ => false }

def projFail : ProjectM :=
  { id := "pf", name := "pf", urls := ["https://a.com/"], maxPages := some 10,
    delay := some 0, downloadAssets := false, downloadImages := none,
    status := ProjStatus.idle, progress := 0, error := none, lastRun := none }

/-- Two seeds on different hosts; the page under the second seed links to
another page on the second seed's host. -/
def env8 : ProjEnv :=
  { pages := fun u =>
      if u = "https://a.com/" then some (pageOf [] [] 200)
      else if u = "https://b.com/" then
        some (pageOf [linkTo "https://b.com/x" true] [] 200)
      else if u = "https://b.com/x" then some (pageOf [] [] 200)
      else none
    assetSuccess := fun _ => true }

def proj8 : ProjectM :=
  { id := "p8", name := "p8", urls := ["https://a.com/", "https://b.com/"],
    maxPages := some 10, delay := some 0, downloadAssets := false,
    downloadImages := none, status := ProjStatus.idle, progress := 0,
    error := none, lastRun := none }

/-- Two `high`-confidence observations of the same technology with
different versions, on consecutive pages. -/
def techHighV1 : TechInfo :=
  { name := "X", version := some "1", category := "framework", confidence := "high" }

def techHighV2 : TechInfo :=
  { name := "X", version := some "2", category := "framework", confidence := "high" }

def techLow : TechInfo :=
  { name := "X", version := none, category := "framework", confidence := "low" }

def recWithTechs (u : String) (ts : List TechInfo) : PageRecord :=
  { url := u, title := "", textContent := "", links := [], images := [],
    technologies := ts, statusCode := 200 }

/-- A transport serving a two-hop redirect chain ending in a 200. -/
def fetchChain : String → FetchOutcome := fun u =>
  if u = "http://h.com/a.png" then
    FetchOutcome.response
      { statusCode := 301, location := some "http://h.com/b.png",
        contentLength := none, chunks := [] }
  else if u = "http://h.com/b.png" then
    FetchOutcome.response
      { statusCode := 302, location := some "http://h.com/c.png",
        contentLength := none, chunks := [] }
  else if u = "http://h.com/c.png" then
    FetchOutcome.response
      { statusCode := 200, location := none, contentLength := some 3,
        chunks := [1, 2] }
  else FetchOutcome.netError "no such host"

/-- A transport whose one URL redirects to itself forever. -/
def fetchCycle : String → FetchOutcome := fun u =>
  if u = "http://c.com/loop.png" then
    FetchOutcome.response
      { statusCode := 302, location := some "http://c.com/loop.png",
        contentLength := none, chunks := [] }
  else FetchOutcome.netError "no such host"

def assetEnvChain : AssetEnv :=
  { fetch := fetchChain, resolveRef := fun _ _ => none, files := [] }

def assetEnvCycle : AssetEnv :=
  { fetch := fetchCycle, resolveRef := fun _ _ => none, files := [] }

/-! # Theorems -/

/-! ## C7 — project status recovery on load -/

/-- C7: loading a persisted project store maps each entry in place: an
entry stored as `running` (a crash mid-run) comes back as `idle` with
progress `0`, and an entry with any other status is loaded unchanged;
ids, order and store size are preserved. -/
theorem c7_crash_recovery_on_load (entries : List (String × ProjectM)) (i : Nat) :
    (loadProjectsModel entries)[i]? = (entries[i]?).map (fun e =>
      (e.1, if e.2.status = ProjStatus.running then
        { e.2 with status := ProjStatus.idle, progress := 0 } else e.2)) := by
  simp only [loadProjectsModel, List.getElem?_map, resetCrashedProject]

/-! ## C3 — redirect handling in the asset downloader -/

/-- C3 counterexample: on a two-hop redirect chain
(301 → 302 → 200) the downloader succeeds — the second redirect is
followed instead of surfacing as an error in the `AssetDownloadResult`. -/
theorem c3_second_redirect_followed_ctrex :
    downloadAssetModel assetEnvChain {} "img" 5 "http://h.com/a.png" =
      some { url := "http://h.com/a.png", localPath := some "img/a.png",
             success := true, error := none, size := some 3 } := by
  decide

/-- C3 (amended): `downloadFile` follows every 301/302 that carries a
`Location` header, at any chain depth, by re-issuing the whole call at the
target; only a 301/302 without `Location` falls through and surfaces as an
`HTTP <code>` error. -/
theorem c3_redirects_followed_at_every_hop :
    (∀ (fetch : String → FetchOutcome) (timeout maxSize fuel : Nat)
        (url loc : String) (r : HttpResponseM),
      fetch url = FetchOutcome.response r →
      (r.statusCode = 301 ∨ r.statusCode = 302) →
      r.location = some loc →
      downloadFile fetch timeout maxSize (fuel + 1) url =
        downloadFile fetch timeout maxSize fuel loc) ∧
    (∀ (fetch : String → FetchOutcome) (timeout maxSize fuel : Nat)
        (url : String) (r : HttpResponseM),
      fetch url = FetchOutcome.response r →
      (r.statusCode = 301 ∨ r.statusCode = 302) →
      r.location = none →
      downloadFile fetch timeout maxSize fuel url =
        some (Except.error ("HTTP " ++ toString r.statusCode))) := by
  constructor
  · intro fetch timeout maxSize fuel url loc r hf hs hl
    simp only [downloadFile, downloadStep, hf, if_pos hs, hl]
  · intro fetch timeout maxSize fuel url r hf hs hl
    have h200 : r.statusCode ≠ 200 := by
      rcases hs with h | h <;> omega
    have hstep : downloadStep fetch timeout maxSize url =
        FetchStep.done (Except.error ("HTTP " ++ toString r.statusCode)) := by
      simp only [downloadStep, hf, if_pos hs, hl, downloadBody, if_pos h200]
    cases fuel with
    | zero => simp only [downloadFile, hstep]
    | succ fuel => simp only [downloadFile, hstep]

/-- A transport answering every request with a 301 carrying no
`Location`. -/
def fetchBareRedirect : String → FetchOutcome := fun _ =>
  FetchOutcome.response
    { statusCode := 301, location := none, contentLength := none, chunks := [] }

/-- Witness for C3: the redirect-hop equation and the missing-`Location`
error, both at concrete transports. -/
theorem c3_redirects_followed_at_every_hop_witness :
    (downloadFile fetchChain 5000 1000 5 "http://h.com/a.png" =
      downloadFile fetchChain 5000 1000 4 "http://h.com/b.png") ∧
    (downloadFile fetchBareRedirect 5000 1000 7 "http://n.com/x" =
      some (Except.error ("HTTP " ++ toString (301 : Nat)))) :=
  ⟨c3_redirects_followed_at_every_hop.1 fetchChain 5000 1000 4
      "http://h.com/a.png" "http://h.com/b.png"
      { statusCode := 301, location := some "http://h.com/b.png",
        contentLength := none, chunks := [] }
      rfl (Or.inl rfl) rfl,
   c3_redirects_followed_at_every_hop.2 fetchBareRedirect 5000 1000 7 "http://n.com/x"
      { statusCode := 301, location := none, contentLength := none, chunks := [] }
      rfl (Or.inl rfl) rfl⟩

/-! ## C5 — site-wide technology aggregation -/

theorem find?_congr_of_mem {α : Type} (l : List α) (p q : α → Bool)
    (h : ∀ x ∈ l, p x = q x) : l.find? p = l.find? q := by
  induction l with
  | nil => rfl
  | cons a l ih =>
    simp only [List.find?_cons]
    rw [h a (List.mem_cons_self a l)]
    cases q a with
    | true => rfl
    | false => exact ih (fun x hx => h x (List.mem_cons_of_mem a hx))

theorem find_replaceKey_other (m : List (String × TechInfo)) (k : String)
    (v : TechInfo) (n : String) (hn : n ≠ k) :
    (m.map (fun p => if p.1 = k then (k, v) else p)).find? (fun pr => pr.1 = n) =
      m.find? (fun pr => pr.1 = n) := by
  induction m with
  | nil => rfl
  | cons p m ih =>
    by_cases h : p.1 = k
    · simp only [List.map_cons, if_pos h, List.find?_cons]
      have hkn : (decide ((k, v).1 = n)) = false := by simp [hn.symm]
      have hpn : (decide (p.1 = n)) = false := by simp [h, hn.symm]
      rw [hkn, hpn, ih]
    · simp only [List.map_cons, if_neg h, List.find?_cons]
      cases hd : decide (p.1 = n) with
      | true => rfl
      | false => rw [ih]

theorem find_replaceKey_self (m : List (String × TechInfo)) (k : String)
    (v : TechInfo) (hany : m.any (fun pr => pr.1 = k) = true) :
    (m.map (fun p => if p.1 = k then (k, v) else p)).find? (fun pr => pr.1 = k) =
      some (k, v) := by
  induction m with
  | nil => simp at hany
  | cons p m ih =>
    by_cases h : p.1 = k
    · simp only [List.map_cons, if_pos h, List.find?_cons]
      simp
    · have hany' : m.any (fun pr => pr.1 = k) = true := by
        simp only [List.any_cons] at hany
        rcases Bool.or_eq_true_iff.1 hany with h1 | h1
        · exact absurd (of_decide_eq_true h1) h
        · exact h1
      simp only [List.map_cons, if_neg h, List.find?_cons]
      have hpn : (decide (p.1 = k)) = false := by simp [h]
      rw [hpn, ih hany']

theorem techMapSet_find_self (m : List (String × TechInfo)) (k : String) (v : TechInfo) :
    (techMapSet m k v).find? (fun pr => pr.1 = k) = some (k, v) := by
  unfold techMapSet
  by_cases hany : m.any (fun pr => pr.1 = k) = true
  · rw [if_pos hany, find_replaceKey_self m k v hany]
  · rw [if_neg hany, List.find?_append]
    have hno : m.find? (fun pr => pr.1 = k) = none := by
      cases hf : m.find? (fun pr => pr.1 = k) with
      | none => rfl
      | some pr =>
        exfalso
        apply hany
        have := List.find?_some hf
        have hm := List.mem_of_find?_eq_some hf
        exact List.any_of_mem hm this
    rw [hno]
    simp

theorem techMapSet_find_other (m : List (String × TechInfo)) (k : String)
    (v : TechInfo) (n : String) (hn : n ≠ k) :
    (techMapSet m k v).find? (fun pr => pr.1 = n) = m.find? (fun pr => pr.1 = n) := by
  unfold techMapSet
  by_cases hany : m.any (fun pr => pr.1 = k) = true
  · rw [if_pos hany, find_replaceKey_other m k v n hn]
  · rw [if_neg hany, List.find?_append]
    have h1 : [(k, v)].find? (fun pr => pr.1 = n) = none := by simp [hn.symm]
    rw [h1]
    simp

theorem techMapSet_keys_present (m : List (String × TechInfo)) (k : String)
    (v : TechInfo) (h : m.any (fun pr => pr.1 = k) = true) :
    (techMapSet m k v).map Prod.fst = m.map Prod.fst := by
  unfold techMapSet
  rw [if_pos h, List.map_map]
  apply List.map_congr_left
  intro p _
  by_cases hp : p.1 = k
  · simp [hp]
  · simp [hp]

theorem techMapSet_keys_absent (m : List (String × TechInfo)) (k : String)
    (v : TechInfo) (h : ¬ m.any (fun pr => pr.1 = k) = true) :
    (techMapSet m k v).map Prod.fst = m.map Prod.fst ++ [k] := by
  unfold techMapSet
  rw [if_neg h, List.map_append]
  rfl

/-- Keys of the technology map name their values. -/
def KeysMatch (m : List (String × TechInfo)) : Prop :=
  ∀ pr ∈ m, pr.1 = pr.2.name

theorem techFoldStep_keysMatch (m : List (String × TechInfo)) (t : TechInfo)
    (h : KeysMatch m) : KeysMatch (techFoldStep m t) := by
  unfold techFoldStep
  split
  · unfold techMapSet
    split
    · intro pr hpr
      rcases List.mem_map.1 hpr with ⟨q, hq, hqe⟩
      by_cases hqk : q.1 = t.name
      · rw [if_pos hqk] at hqe
        rw [← hqe]
      · rw [if_neg hqk] at hqe
        rw [← hqe]
        exact h q hq
    · intro pr hpr
      rcases List.mem_append.1 hpr with hq | hq
      · exact h pr hq
      · rcases List.mem_singleton.1 hq with rfl
        rfl
  · exact h

theorem techFoldStep_keysNodup (m : List (String × TechInfo)) (t : TechInfo)
    (h : (m.map Prod.fst).Nodup) : ((techFoldStep m t).map Prod.fst).Nodup := by
  unfold techFoldStep
  split
  · by_cases hany : m.any (fun pr => pr.1 = t.name) = true
    · rw [techMapSet_keys_present m t.name t hany]
      exact h
    · rw [techMapSet_keys_absent m t.name t hany]
      have hnot : t.name ∉ m.map Prod.fst := by
        intro hmem
        apply hany
        rcases List.mem_map.1 hmem with ⟨q, hq, hqe⟩
        exact List.any_of_mem hq (by simp [hqe])
      simp [List.nodup_append, h, hnot]
  · exact h

theorem lastHigh_append_one (obs : List TechInfo) (t : TechInfo) (n : String) :
    lastHigh (obs ++ [t]) n =
      if t.name = n ∧ t.confidence = "high" then some t else lastHigh obs n := by
  unfold lastHigh
  rw [List.filter_append]
  by_cases h : t.name = n ∧ t.confidence = "high"
  · have : [t].filter (fun s => s.name = n && s.confidence = "high") = [t] := by
      simp [h.1, h.2]
    rw [this, if_pos h, List.getLast?_concat]
  · have : [t].filter (fun s => s.name = n && s.confidence = "high") = [] := by
      rcases not_and_or.1 h with h1 | h1 <;> simp [h1]
    rw [this, if_neg h, List.append_nil]

theorem firstObs_append_one (obs : List TechInfo) (t : TechInfo) (n : String) :
    firstObs (obs ++ [t]) n =
      match firstObs obs n with
      | some x => some x
      | none => if t.name = n then some t else none := by
  unfold firstObs
  rw [List.filter_append]
  cases hf : (obs.filter (fun s => s.name = n)).head? with
  | some x =>
    cases hl : obs.filter (fun s => s.name = n) with
    | nil => rw [hl] at hf; simp at hf
    | cons y ys =>
      rw [hl] at hf
      simp only [List.head?_cons, Option.some.injEq] at hf
      subst hf
      simp [hl]
  | none =>
    have hl : obs.filter (fun s => s.name = n) = [] := by
      cases hc : obs.filter (fun s => s.name = n) with
      | nil => rfl
      | cons y ys => rw [hc] at hf; simp at hf
    rw [hl, List.nil_append]
    by_cases h : t.name = n <;> simp [h]

/-- The technology map accumulated over an observation list. -/
def techMapOf (obs : List TechInfo) : List (String × TechInfo) :=
  obs.foldl techFoldStep []

theorem techMapOf_append_one (obs : List TechInfo) (t : TechInfo) :
    techMapOf (obs ++ [t]) = techFoldStep (techMapOf obs) t := by
  unfold techMapOf
  rw [List.foldl_append]
  rfl

/-- Full characterization of the accumulated technology map: keys name
their values, keys are unique, and the entry for each name is the last
`high`-confidence observation, or the first observation when no `high`
one exists. -/
theorem techMapOf_characterization (obs : List TechInfo) :
    KeysMatch (techMapOf obs) ∧ ((techMapOf obs).map Prod.fst).Nodup ∧
      ∀ n, (techMapOf obs).find? (fun pr => pr.1 = n) =
        (entryFor obs n).map (fun t => (n, t)) := by
  induction obs using List.reverseRecOn with
  | nil =>
    refine ⟨by intro pr hpr; simp [techMapOf] at hpr, by simp [techMapOf], ?_⟩
    intro n
    simp [techMapOf, entryFor, lastHigh, firstObs]
  | append_singleton obs t ih =>
    obtain ⟨ihKeys, ihNodup, ihFind⟩ := ih
    rw [techMapOf_append_one]
    refine ⟨techFoldStep_keysMatch _ t ihKeys, techFoldStep_keysNodup _ t ihNodup, ?_⟩
    intro n
    by_cases hconf : t.confidence = "high"
    · have hstep : techFoldStep (techMapOf obs) t = techMapSet (techMapOf obs) t.name t := by
        unfold techFoldStep
        rw [if_pos (Or.inr hconf)]
      rw [hstep]
      by_cases hname : t.name = n
      · subst hname
        rw [techMapSet_find_self]
        unfold entryFor
        rw [lastHigh_append_one]
        rw [if_pos ⟨rfl, hconf⟩]
        rfl
      · rw [techMapSet_find_other _ _ _ n (fun he => hname he.symm), ihFind n]
        unfold entryFor
        rw [lastHigh_append_one, if_neg (fun hc => hname hc.1)]
        rw [firstObs_append_one]
        cases lastHigh obs n with
        | some x => rfl
        | none =>
          cases firstObs obs n with
          | some x => rfl
          | none => simp [hname]
    · by_cases hpresent : ((techMapOf obs).find? (fun pr => pr.1 = t.name)).isNone
      · have hstep : techFoldStep (techMapOf obs) t = techMapSet (techMapOf obs) t.name t := by
          unfold techFoldStep
          rw [if_pos (Or.inl hpresent)]
        rw [hstep]
        have hnone : entryFor obs t.name = none := by
          have := ihFind t.name
          rw [Option.isNone_iff_eq_none] at hpresent
          rw [hpresent] at this
          cases he : entryFor obs t.name with
          | none => rfl
          | some x => rw [he] at this; simp at this
        have hLH : lastHigh obs t.name = none := by
          unfold entryFor at hnone
          cases hl : lastHigh obs t.name with
          | none => rfl
          | some x => rw [hl] at hnone; simp at hnone
        have hFO : firstObs obs t.name = none := by
          unfold entryFor at hnone
          rw [hLH] at hnone
          exact hnone
        by_cases hname : t.name = n
        · subst hname
          rw [techMapSet_find_self]
          unfold entryFor
          rw [lastHigh_append_one, if_neg (fun hc => hconf hc.2), hLH,
            firstObs_append_one, hFO]
          simp
        · rw [techMapSet_find_other _ _ _ n (fun he => hname he.symm), ihFind n]
          unfold entryFor
          rw [lastHigh_append_one, if_neg (fun hc => hname hc.1), firstObs_append_one]
          cases lastHigh obs n with
          | some x => rfl
          | none =>
            cases firstObs obs n with
            | some x => rfl
            | none => simp [hname]
      · have hstep : techFoldStep (techMapOf obs) t = techMapOf obs := by
          unfold techFoldStep
          rw [if_neg]
          intro hor
          rcases hor with h1 | h1
          · exact hpresent h1
          · exact hconf h1
        rw [hstep]
        by_cases hname : t.name = n
        · subst hname
          rw [ihFind t.name]
          have hsome : (entryFor obs t.name).isSome := by
            have := ihFind t.name
            cases he : entryFor obs t.name with
            | some x => rfl
            | none =>
              rw [he] at this
              simp only [Option.map_none'] at this
              exact absurd (by rw [this]; rfl) hpresent
          unfold entryFor at hsome ⊢
          rw [lastHigh_append_one, if_neg (fun hc => hconf hc.2), firstObs_append_one]
          cases hl : lastHigh obs t.name with
          | some x => rfl
          | none =>
            rw [hl] at hsome
            cases hfo : firstObs obs t.name with
            | some x => rfl
            | none => rw [hfo] at hsome; simp at hsome
        · rw [ihFind n]
          unfold entryFor
          rw [lastHigh_append_one, if_neg (fun hc => hname hc.1), firstObs_append_one]
          cases lastHigh obs n with
          | some x => rfl
          | none =>
            cases firstObs obs n with
            | some x => rfl
            | none => simp [hname]

/-- The page-level double fold equals the fold over the flattened
observation list. -/
theorem aggregate_eq_techMapOf (pages : List PageRecord) :
    aggregateTechnologies pages = (techMapOf (obsOf pages)).map (fun pr => pr.2) := by
  unfold aggregateTechnologies techMapOf
  congr 1
  have h : ∀ (init : List (String × TechInfo)),
      pages.foldl (fun m page => page.technologies.foldl techFoldStep m) init =
        (obsOf pages).foldl techFoldStep init := by
    induction pages with
    | nil => intro init; simp [obsOf]
    | cons p ps ih =>
      intro init
      rw [List.foldl_cons]
      have : obsOf (p :: ps) = p.technologies ++ obsOf ps := by
        simp [obsOf]
      rw [this, List.foldl_append, ih]
  exact h []

/-- C5 counterexample: two `high`-confidence observations of the same
name on consecutive pages — the aggregation keeps the *later* one,
whereas the claim ("otherwise the first-seen entry is kept") demands the
first-seen `high` entry to survive. -/
theorem c5_later_high_overwrites_high_ctrex :
    aggregateTechnologies
        [recWithTechs "pA" [techHighV1], recWithTechs "pB" [techHighV2]] =
      [techHighV2] ∧ techHighV2 ≠ techHighV1 := by
  decide

/-- C5 (amended): the aggregation is unique by name, and for every name
the surviving entry is the *last* observation with confidence `high`
(a later `high` observation overwrites any existing entry, even one
already at `high`), or the first observation when no `high` one exists;
in particular a low-confidence observation followed by a later
high-confidence observation of the same name yields exactly that high
entry, once. -/
theorem c5_aggregation_merge_rule :
    (∀ pages : List PageRecord,
      ((aggregateTechnologies pages).map (fun t => t.name)).Nodup) ∧
    (∀ (pages : List PageRecord) (n : String),
      (aggregateTechnologies pages).find? (fun t => t.name = n) =
        entryFor (obsOf pages) n) ∧
    aggregateTechnologies [recWithTechs "pA" [techLow], recWithTechs "pB" [techHighV2]] =
      [techHighV2] := by
  refine ⟨?_, ?_, by decide⟩
  · intro pages
    obtain ⟨hKeys, hNodup, _⟩ := techMapOf_characterization (obsOf pages)
    rw [aggregate_eq_techMapOf]
    have : (techMapOf (obsOf pages)).map (fun pr => pr.2.name) =
        (techMapOf (obsOf pages)).map Prod.fst := by
      apply List.map_congr_left
      intro pr hpr
      exact (hKeys pr hpr).symm
    rw [List.map_map]
    show ((techMapOf (obsOf pages)).map (fun pr => pr.2.name)).Nodup
    rw [this]
    exact hNodup
  · intro pages n
    obtain ⟨hKeys, _, hFind⟩ := techMapOf_characterization (obsOf pages)
    rw [aggregate_eq_techMapOf, List.find?_map]
    have hpred : (techMapOf (obsOf pages)).find?
        ((fun t => decide (t.name = n)) ∘ (fun pr => pr.2)) =
        (techMapOf (obsOf pages)).find? (fun pr => pr.1 = n) := by
      apply find?_congr_of_mem
      intro pr hpr
      simp [Function.comp, hKeys pr hpr]
    rw [hpred, hFind n]
    cases entryFor (obsOf pages) n with
    | none => rfl
    | some t => rfl

/-! ## C6 — progress clamp -/

theorem progressUpdate_bounds (p T pc M : Nat) :
    0 ≤ progressUpdate p T pc M ∧ progressUpdate p T pc M ≤ 99 := by
  unfold progressUpdate
  refine ⟨Int.ofNat_nonneg _, ?_⟩
  show Int.ofNat (min (if 0 < M then roundHalfUp (p * 100 * M + pc * 100) (M * T)
    else roundHalfUp (p * 100) T) 99) ≤ 99
  exact Int.ofNat_le.mpr (Nat.min_le_right _ 99)

/-- Every event `downloadPageAssets` emits carries the supplied current
progress value. -/
theorem assetEventsFor_progress (env : ProjEnv) (proj : ProjectM) (p : Int)
    (pd : PageDataM) : ∀ e ∈ assetEventsFor env proj p pd, e.progress = p := by
  intro e he
  simp only [assetEventsFor] at he
  split at he
  · rcases List.mem_cons.1 he with he | he
    · rw [he]
    · rcases List.mem_map.1 he with ⟨img, _, hi⟩
      rw [← hi]
  · simp at he

theorem projInner_clamped (env : ProjEnv) (proj : ProjectM) (b : String)
    (totalUrls processedUrls maxPages : Nat) :
    ∀ (fuel : Nat) (frontier : List String) (pageCount : Nat) (st : RunState),
      RunStateClamped st →
      RunStateClamped
        (projInner env proj b totalUrls processedUrls maxPages fuel frontier pageCount st).1 := by
  intro fuel
  induction fuel with
  | zero => intro frontier pageCount st h; exact h
  | succ fuel ih =>
    intro frontier pageCount st h
    simp only [projInner]
    split
    · exact h
    · cases frontier with
      | nil => exact h
      | cons u rest =>
        by_cases hv : normalizeUrl u ∈ st.visitedUrls
        · simp only [if_pos hv]
          exact ih rest pageCount st h
        · simp only [if_neg hv]
          cases hp : env.pages u with
          | none =>
            exact ih rest pageCount _ ⟨h.1, h.2.1, h.2.2⟩
          | some pd =>
            apply ih
            obtain ⟨hprog, hev, hst⟩ := h
            obtain ⟨hu1, hu2⟩ := progressUpdate_bounds processedUrls totalUrls
              (pageCount + 1) maxPages
            refine ⟨⟨hu1, hu2⟩, ?_, ?_⟩
            · intro e he
              simp only [projSuccessState] at he
              rcases List.mem_append.1 he with he | he
              · rcases List.mem_append.1 he with he | he
                · rcases List.mem_append.1 he with he | he
                  · exact hev e he
                  · rcases List.mem_singleton.1 he with rfl
                    exact hprog
                · rw [assetEventsFor_progress env proj _ pd e he]
                  exact hprog
              · rcases List.mem_singleton.1 he with rfl
                exact ⟨hu1, hu2⟩
            · intro v hv'
              simp only [projSuccessState] at hv'
              rcases List.mem_append.1 hv' with hv' | hv'
              · exact hst v hv'
              · rcases List.mem_singleton.1 hv' with rfl
                exact ⟨hu1, hu2⟩

theorem projOuter_clamped (env : ProjEnv) (proj : ProjectM) (totalUrls fuel : Nat) :
    ∀ (seeds : List String) (processedUrls : Nat) (st : RunState),
      RunStateClamped st →
      RunStateClamped (projOuter env proj totalUrls fuel seeds processedUrls st) := by
  intro seeds
  induction seeds with
  | nil => intro processedUrls st h; exact h
  | cons s seeds ih =>
    intro processedUrls st h
    exact ih _ _ (projInner_clamped env proj s totalUrls processedUrls
      (proj.maxPages.getD 50) fuel [s] 0 st h)

/-- C6: in every project run, all progress values persisted and all
progress values reported to observers before the terminal completion
event lie in `[0, 99]`; the value `100` is carried exactly by the final
entries — the terminal `Completed` event and the final persisted state —
emitted after the report is assembled and the status set to completed. -/
theorem c6_progress_clamped (env : ProjEnv) (proj : ProjectM) (fuel : Nat) :
    (∀ e ∈ (runProjectModel env proj fuel).events.dropLast,
      0 ≤ e.progress ∧ e.progress ≤ 99) ∧
    (runProjectModel env proj fuel).events.getLast? =
      some { progress := 100, status := "Completed" } ∧
    (∀ v ∈ (runProjectModel env proj fuel).stored.dropLast, 0 ≤ v ∧ v ≤ 99) ∧
    (runProjectModel env proj fuel).stored.getLast? = some 100 := by
  have hclamped : RunStateClamped
      (projOuter env { proj with status := ProjStatus.running, progress := 0, error := none }
        proj.urls.length fuel proj.urls 0
        { visitedUrls := ∅, allPages := [], progress := 0, events := [], stored := [0] }) := by
    apply projOuter_clamped
    refine ⟨⟨le_refl 0, by norm_num⟩, ?_, ?_⟩
    · intro e he; simp at he
    · intro v hv
      rcases List.mem_singleton.1 hv with rfl
      exact ⟨le_refl 0, by norm_num⟩
  obtain ⟨_, hev, hst⟩ := hclamped
  refine ⟨?_, ?_, ?_, ?_⟩
  · intro e he
    rw [show (runProjectModel env proj fuel).events =
      _ ++ [{ progress := 100, status := "Completed" }] from rfl,
      List.dropLast_concat] at he
    exact hev e he
  · rw [show (runProjectModel env proj fuel).events =
      _ ++ [{ progress := 100, status := "Completed" }] from rfl,
      List.getLast?_concat]
  · intro v hv
    rw [show (runProjectModel env proj fuel).stored = _ ++ [(100 : Int)] from rfl,
      List.dropLast_concat] at hv
    exact hst v hv
  · rw [show (runProjectModel env proj fuel).stored = _ ++ [(100 : Int)] from rfl,
      List.getLast?_concat]

/-- Witness for C6 at a concrete two-seed run. -/
theorem c6_progress_clamped_witness :
    (∀ e ∈ (runProjectModel env8 proj8 10).events.dropLast,
      0 ≤ e.progress ∧ e.progress ≤ 99) ∧
    (runProjectModel env8 proj8 10).events.getLast? =
      some { progress := 100, status := "Completed" } ∧
    (∀ v ∈ (runProjectModel env8 proj8 10).stored.dropLast, 0 ≤ v ∧ v ≤ 99) ∧
    (runProjectModel env8 proj8 10).stored.getLast? = some 100 :=
  c6_progress_clamped env8 proj8 10

/-! ## C1 — at most one page record per normalized URL -/

theorem appendRecordClean (visited : Finset String) (pages : List PageRecord)
    (r : PageRecord) (h : PagesNormClean visited pages)
    (hr : normalizeUrl r.url ∉ visited) :
    PagesNormClean (insert (normalizeUrl r.url) visited) (pages ++ [r]) := by
  obtain ⟨hnd, hmem⟩ := h
  constructor
  · rw [List.map_append]
    have hnotin : normalizeUrl r.url ∉ pages.map (fun p => normalizeUrl p.url) := by
      intro hin
      rcases List.mem_map.1 hin with ⟨p, hp, hpe⟩
      exact hr (hpe ▸ hmem p hp)
    simp [List.nodup_append, hnd, hnotin]
  · intro p hp
    rcases List.mem_append.1 hp with hp | hp
    · exact Finset.mem_insert_of_mem (hmem p hp)
    · rcases List.mem_singleton.1 hp with rfl
      exact Finset.mem_insert_self _ _

theorem crawlIter_normClean (env : PageEnv) (cfg : CrawlConfig) (s : CrawlState)
    (u : String) (rest : List String)
    (h : PagesNormClean s.visitedUrls s.pages) :
    PagesNormClean (crawlIter env cfg s u rest).visitedUrls
      (crawlIter env cfg s u rest).pages := by
  unfold crawlIter
  by_cases hv : normalizeUrl u ∈ s.visitedUrls
  · simp only [if_pos hv]
    exact h
  · simp only [if_neg hv]
    cases env u with
    | none => exact appendRecordClean s.visitedUrls s.pages (degradedRecord u) h hv
    | some pd => exact appendRecordClean s.visitedUrls s.pages (mkRecord u pd) h hv

theorem crawlLoop_normClean (env : PageEnv) (cfg : CrawlConfig) :
    ∀ (fuel : Nat) (s s' : CrawlState), PagesNormClean s.visitedUrls s.pages →
      crawlLoop env cfg fuel s = some s' →
      PagesNormClean s'.visitedUrls s'.pages := by
  intro fuel
  induction fuel with
  | zero =>
    intro s s' h hloop
    simp only [crawlLoop] at hloop
    split at hloop
    · cases hloop
      exact h
    · cases hloop
  | succ fuel ih =>
    intro s s' h hloop
    simp only [crawlLoop] at hloop
    split at hloop
    · cases hloop
      exact h
    · cases hf : s.urlsToVisit with
      | nil =>
        rw [hf] at hloop
        cases hloop
        exact h
      | cons u rest =>
        rw [hf] at hloop
        exact ih _ s' (crawlIter_normClean env cfg s u rest h) hloop

theorem projInner_normClean (env : ProjEnv) (proj : ProjectM) (b : String)
    (totalUrls processedUrls maxPages : Nat) :
    ∀ (fuel : Nat) (frontier : List String) (pageCount : Nat) (st : RunState),
      PagesNormClean st.visitedUrls st.allPages →
      PagesNormClean
        (projInner env proj b totalUrls processedUrls maxPages fuel frontier pageCount st).1.visitedUrls
        (projInner env proj b totalUrls processedUrls maxPages fuel frontier pageCount st).1.allPages := by
  intro fuel
  induction fuel with
  | zero => intro frontier pageCount st h; exact h
  | succ fuel ih =>
    intro frontier pageCount st h
    simp only [projInner]
    split
    · exact h
    · cases frontier with
      | nil => exact h
      | cons u rest =>
        by_cases hv : normalizeUrl u ∈ st.visitedUrls
        · simp only [if_pos hv]
          exact ih rest pageCount st h
        · simp only [if_neg hv]
          cases env.pages u with
          | none => exact ih rest pageCount _ ⟨h.1, fun p hp =>
              Finset.mem_insert_of_mem (h.2 p hp)⟩
          | some pd =>
            apply ih
            exact appendRecordClean st.visitedUrls st.allPages (mkRecord u pd) h hv

theorem projOuter_normClean (env : ProjEnv) (proj : ProjectM) (totalUrls fuel : Nat) :
    ∀ (seeds : List String) (processedUrls : Nat) (st : RunState),
      PagesNormClean st.visitedUrls st.allPages →
      PagesNormClean (projOuter env proj totalUrls fuel seeds processedUrls st).visitedUrls
        (projOuter env proj totalUrls fuel seeds processedUrls st).allPages := by
  intro seeds
  induction seeds with
  | nil => intro processedUrls st h; exact h
  | cons s seeds ih =>
    intro processedUrls st h
    exact ih _ _ (projInner_normClean env proj s totalUrls processedUrls
      (proj.maxPages.getD 50) fuel [s] 0 st h)

/-- C1: in both the one-shot `SiteCrawler` run and the project run's
embedded crawl loop, no two records of the final page list normalize to
the same URL string — the visited set is checked and extended before any
record is appended. -/
theorem c1_no_duplicate_normalized_pages :
    (∀ (env : PageEnv) (cfg : CrawlConfig) (fuel : Nat) (s : CrawlState),
      crawlLoop env cfg fuel (crawlInit cfg) = some s →
      (s.pages.map (fun p => normalizeUrl p.url)).Nodup) ∧
    (∀ (env : ProjEnv) (proj : ProjectM) (fuel : Nat),
      ((runProjectModel env proj fuel).report.pages.map
        (fun p => normalizeUrl p.url)).Nodup) := by
  constructor
  · intro env cfg fuel s hloop
    have hinit : PagesNormClean (crawlInit cfg).visitedUrls (crawlInit cfg).pages := by
      exact ⟨List.nodup_nil, fun p hp => absurd hp (List.not_mem_nil p)⟩
    exact (crawlLoop_normClean env cfg fuel (crawlInit cfg) s hinit hloop).1
  · intro env proj fuel
    have hinit : PagesNormClean (∅ : Finset String) ([] : List PageRecord) :=
      ⟨List.nodup_nil, fun p hp => absurd hp (List.not_mem_nil p)⟩
    exact (projOuter_normClean env
      { proj with status := ProjStatus.running, progress := 0, error := none }
      proj.urls.length fuel proj.urls 0
      { visitedUrls := ∅, allPages := [], progress := 0, events := [], stored := [0] }
      hinit).1

/-- Witness for C1 at the concrete three-page site (the root is linked
back to by `p1` and must not be recorded twice). -/
theorem c1_no_duplicate_normalized_pages_witness :
    ((((crawlLoop envA cfgA 10 (crawlInit cfgA)).getD (crawlInit cfgA)).pages.map
      (fun p => normalizeUrl p.url)).Nodup) :=
  c1_no_duplicate_normalized_pages.1 envA cfgA 10 _ (by rfl)

/-! ## C4 — per-page failures degrade, never abort -/

/-- C4 counterexample: in the project run, a URL whose processing throws
produces *no* record at all — the claim's degraded `PageRecord`
(`statusCode 0`, empty fields) is absent from the final page list, which
here is empty although the (failing) seed was dequeued and processed. -/
theorem c4_project_error_drops_page_ctrex :
    (runProjectModel projEnvFail projFail 5).report.pages = [] ∧
    (runProjectModel projEnvFail projFail 5).report.totalPages = 0 := by
  decide

/-- C4 (amended): in the one-shot `SiteCrawler`, a URL whose processing
throws yields a degraded record (every field empty, `statusCode 0`)
appended to the page list, and the loop goes on with the remaining
frontier; in the project run's embedded loop the error is only logged —
the URL is consumed (and stays marked visited) but nothing is appended and
the page counter does not advance — and the loop likewise goes on. -/
theorem c4_error_paths_continue_crawl :
    (∀ (env : PageEnv) (cfg : CrawlConfig) (s : CrawlState) (u : String)
        (rest : List String),
      env u = none → normalizeUrl u ∉ s.visitedUrls →
      crawlIter env cfg s u rest =
        { visitedUrls := insert (normalizeUrl u) s.visitedUrls
          urlsToVisit := rest
          pages := s.pages ++
            [{ url := u, title := "", textContent := "", links := [],
               images := [], technologies := [], statusCode := 0 }] }) ∧
    (∀ (env : PageEnv) (cfg : CrawlConfig) (fuel : Nat) (s : CrawlState)
        (u : String) (rest : List String),
      s.urlsToVisit = u :: rest → crawlDone cfg s = false →
      crawlLoop env cfg (fuel + 1) s = crawlLoop env cfg fuel (crawlIter env cfg s u rest)) ∧
    (∀ (env : ProjEnv) (proj : ProjectM) (b : String)
        (totalUrls processedUrls maxPages fuel pageCount : Nat)
        (u : String) (rest : List String) (st : RunState),
      env.pages u = none → normalizeUrl u ∉ st.visitedUrls →
      (maxPages = 0 ∨ pageCount < maxPages) →
      projInner env proj b totalUrls processedUrls maxPages (fuel + 1)
          (u :: rest) pageCount st =
        projInner env proj b totalUrls processedUrls maxPages fuel rest pageCount
          { st with visitedUrls := insert (normalizeUrl u) st.visitedUrls }) := by
  refine ⟨?_, ?_, ?_⟩
  · intro env cfg s u rest henv hv
    unfold crawlIter
    rw [if_neg hv, henv]
    rfl
  · intro env cfg fuel s u rest hf hdone
    simp only [crawlLoop, hdone, Bool.false_eq_true, if_false, hf]
  · intro env proj b totalUrls processedUrls maxPages fuel pageCount u rest st henv hv hguard
    have hok : ((u :: rest).isEmpty || !(maxPages = 0 || pageCount < maxPages)) = false := by
      simp only [List.isEmpty_cons, Bool.false_or, Bool.not_eq_false']
      rcases hguard with h | h
      · simp [h]
      · simp [h]
    simp only [projInner, hok, Bool.false_eq_true, if_false, if_neg hv, henv]

/-- Witness for C4: the degraded record of the failing `SiteCrawler` page,
the loop-continuation equation, and the record-free project step, all at
concrete inputs. -/
theorem c4_error_paths_continue_crawl_witness :
    (crawlIter envFail cfgA (crawlInit cfgA) "https://e.com/" [] =
      { visitedUrls := insert (normalizeUrl "https://e.com/") (crawlInit cfgA).visitedUrls
        urlsToVisit := []
        pages :=
          [{ url := "https://e.com/", title := "", textContent := "", links := [],
             images := [], technologies := [], statusCode := 0 }] }) ∧
    (crawlLoop envFail cfgA 3 (crawlInit cfgA) =
      crawlLoop envFail cfgA 2 (crawlIter envFail cfgA (crawlInit cfgA) "https://e.com/" [])) ∧
    (projInner projEnvFail projFail "https://a.com/" 1 0 10 3 ["https://a.com/"] 0
        { visitedUrls := ∅, allPages := [], progress := 0, events := [], stored := [0] } =
      projInner projEnvFail projFail "https://a.com/" 1 0 10 2 [] 0
        { visitedUrls := insert (normalizeUrl "https://a.com/") ∅, allPages := [],
          progress := 0, events := [], stored := [0] }) :=
  ⟨by
    have h := c4_error_paths_continue_crawl.1 envFail cfgA (crawlInit cfgA)
      "https://e.com/" [] rfl (by decide)
    simpa using h,
   c4_error_paths_continue_crawl.2.1 envFail cfgA 2 (crawlInit cfgA)
      "https://e.com/" [] rfl (by decide),
   c4_error_paths_continue_crawl.2.2 projEnvFail projFail "https://a.com/" 1 0 10 2 0
      "https://a.com/" []
      { visitedUrls := ∅, allPages := [], progress := 0, events := [], stored := [0] }
      rfl (by decide) (Or.inr (by decide))⟩

/-! ## C8 — the internal-domain anchor is the current seed -/

/-- C8 counterexample: with two seeds on different hosts, a link on the
second seed's host is enqueued and crawled even though its hostname
differs from the first seed's hostname. -/
theorem c8_second_seed_host_crawled_ctrex :
    (runProjectModel env8 proj8 10).report.pages.map (fun p => p.url) =
      ["https://a.com/", "https://b.com/", "https://b.com/x"] ∧
    hostnameOf "https://b.com/x" ≠ hostnameOf "https://a.com/" := by
  decide

theorem shouldCrawl_same_hostname (baseUrl : String) (visited : Finset String)
    (url : String) (h : shouldCrawl baseUrl visited url = true) :
    ∃ hn, hostnameOf baseUrl = some hn ∧ hostnameOf url = some hn := by
  unfold shouldCrawl at h
  cases hb : parseUrlChars baseUrl.toList with
  | none => rw [hb] at h; cases h
  | some bp =>
    cases hu : parseUrlChars url.toList with
    | none => rw [hb, hu] at h; cases h
    | some up =>
      rw [hb, hu] at h
      have h' : (if hostnameOfParts up ≠ hostnameOfParts bp then false
          else if skipExtensions.any (fun ext => ext.isSuffixOf (up.pathname.map lowerChar))
            then false
          else if normalizeUrl url ∈ visited then false else true) = true := h
      by_cases hh : hostnameOfParts up ≠ hostnameOfParts bp
      · rw [if_pos hh] at h'; cases h'
      · push_neg at hh
        refine ⟨hostnameOfParts bp, ?_, ?_⟩
        · unfold hostnameOf; rw [hb]; rfl
        · unfold hostnameOf
          rw [hu]
          show some (hostnameOfParts up) = some (hostnameOfParts bp)
          rw [hh]

theorem pushNew_mem (f ls : List String) :
    ∀ x ∈ pushNew f ls, x ∈ f ∨ x ∈ ls := by
  induction ls generalizing f with
  | nil => intro x hx; exact Or.inl hx
  | cons l ls ih =>
    intro x hx
    unfold pushNew at hx
    rw [List.foldl_cons] at hx
    by_cases hc : f.contains l
    · rw [if_pos hc] at hx
      rcases ih f x hx with hx | hx
      · exact Or.inl hx
      · exact Or.inr (List.mem_cons_of_mem l hx)
    · rw [if_neg hc] at hx
      rcases ih (f ++ [l]) x hx with hx | hx
      · rcases List.mem_append.1 hx with hx | hx
        · exact Or.inl hx
        · rcases List.mem_singleton.1 hx with rfl
          exact Or.inr (List.mem_cons_self _ _)
      · exact Or.inr (List.mem_cons_of_mem l hx)

theorem linksToCrawl_sameHost (b : String) (visited' : Finset String)
    (pd : PageDataM) : ∀ x ∈ linksToCrawl b visited' pd, sameHostAs b x := by
  intro x hx
  unfold linksToCrawl at hx
  rcases List.mem_map.1 hx with ⟨l, hl, hle⟩
  have hfil := List.of_mem_filter hl
  have hsc : shouldCrawl b visited' l.href = true := by
    rcases Bool.and_eq_true_iff.1 hfil with ⟨_, h2⟩
    exact h2
  rcases shouldCrawl_same_hostname b visited' l.href hsc with ⟨hn, hb, hu⟩
  exact Or.inr ⟨hn, hb, hle ▸ hu⟩

theorem projInner_seedScoped (env : ProjEnv) (proj : ProjectM) (b : String)
    (totalUrls processedUrls maxPages : Nat) :
    ∀ (fuel : Nat) (frontier : List String) (pageCount : Nat) (st : RunState),
      (∀ u ∈ frontier, sameHostAs b u) →
      ∀ p ∈ (projInner env proj b totalUrls processedUrls maxPages fuel
        frontier pageCount st).1.allPages,
        p ∈ st.allPages ∨ sameHostAs b p.url := by
  intro fuel
  induction fuel with
  | zero => intro frontier pageCount st _ p hp; exact Or.inl hp
  | succ fuel ih =>
    intro frontier pageCount st hfront p hp
    simp only [projInner] at hp
    split at hp
    · exact Or.inl hp
    · cases frontier with
      | nil => exact Or.inl hp
      | cons u rest =>
        dsimp only at hp
        by_cases hv : normalizeUrl u ∈ st.visitedUrls
        · rw [if_pos hv] at hp
          exact ih rest pageCount st
            (fun x hx => hfront x (List.mem_cons_of_mem u hx)) p hp
        · rw [if_neg hv] at hp
          cases he : env.pages u with
          | none =>
            rw [he] at hp
            dsimp only at hp
            exact ih rest pageCount
              { st with visitedUrls := insert (normalizeUrl u) st.visitedUrls }
              (fun x hx => hfront x (List.mem_cons_of_mem u hx)) p hp
          | some pd =>
            rw [he] at hp
            dsimp only at hp
            have hrec := ih
              (pushNew rest (linksToCrawl b (insert (normalizeUrl u) st.visitedUrls) pd))
              (pageCount + 1)
              (projSuccessState env proj totalUrls processedUrls maxPages
                (pageCount + 1) st u pd)
              (by
                intro x hx
                rcases pushNew_mem rest _ x hx with hx | hx
                · exact hfront x (List.mem_cons_of_mem u hx)
                · exact linksToCrawl_sameHost b _ pd x hx)
              p hp
            rcases hrec with hrec | hrec
            · simp only [projSuccessState] at hrec
              rcases List.mem_append.1 hrec with hrec | hrec
              · exact Or.inl hrec
              · rcases List.mem_singleton.1 hrec with rfl
                exact Or.inr (hfront u (List.mem_cons_self u rest))
            · exact Or.inr hrec

theorem projOuter_seedScoped (env : ProjEnv) (proj : ProjectM) (totalUrls fuel : Nat) :
    ∀ (seeds : List String) (processedUrls : Nat) (st : RunState),
      ∀ p ∈ (projOuter env proj totalUrls fuel seeds processedUrls st).allPages,
        p ∈ st.allPages ∨ ∃ b ∈ seeds, sameHostAs b p.url := by
  intro seeds
  induction seeds with
  | nil => intro processedUrls st p hp; exact Or.inl hp
  | cons s seeds ih =>
    intro processedUrls st p hp
    rcases ih _ _ p hp with hp' | hp'
    · rcases projInner_seedScoped env proj s totalUrls processedUrls
        (proj.maxPages.getD 50) fuel [s] 0 st
        (by
          intro u hu
          rcases List.mem_singleton.1 hu with rfl
          exact Or.inl rfl) p hp' with hp'' | hp''
      · exact Or.inl hp''
      · exact Or.inr ⟨s, List.mem_cons_self s seeds, hp''⟩
    · rcases hp' with ⟨b, hb, hsame⟩
      exact Or.inr ⟨b, List.mem_cons_of_mem s hb, hsame⟩

/-- C8 (amended): the internal-domain anchor is the hostname of the seed
currently being crawled, not the first seed's: `shouldCrawl` only admits a
link whose hostname equals the *current* seed's hostname, so every page of
a project run's report is one of the seeds or shares a hostname with the
seed it was reached from (not necessarily the first seed). -/
theorem c8_anchor_is_current_seed :
    (∀ (baseUrl : String) (visited : Finset String) (url : String),
      shouldCrawl baseUrl visited url = true →
      ∃ hn, hostnameOf baseUrl = some hn ∧ hostnameOf url = some hn) ∧
    (∀ (env : ProjEnv) (proj : ProjectM) (fuel : Nat),
      ∀ p ∈ (runProjectModel env proj fuel).report.pages,
        ∃ b ∈ proj.urls, sameHostAs b p.url) := by
  constructor
  · exact shouldCrawl_same_hostname
  · intro env proj fuel p hp
    have h := projOuter_seedScoped env
      { proj with status := ProjStatus.running, progress := 0, error := none }
      proj.urls.length fuel proj.urls 0
      { visitedUrls := ∅, allPages := [], progress := 0, events := [], stored := [0] }
      p hp
    rcases h with h | h
    · exact absurd h (List.not_mem_nil p)
    · exact h

/-- Witness for C8: the hostname guarantee of `shouldCrawl` and the
seed-scope of a concrete two-seed run. -/
theorem c8_anchor_is_current_seed_witness :
    (∃ hn, hostnameOf "https://b.com/" = some hn ∧
      hostnameOf "https://b.com/x" = some hn) ∧
    (∀ p ∈ (runProjectModel env8 proj8 10).report.pages,
      ∃ b ∈ proj8.urls, sameHostAs b p.url) :=
  ⟨c8_anchor_is_current_seed.1 "https://b.com/" ∅ "https://b.com/x" (by decide),
   c8_anchor_is_current_seed.2 env8 proj8 10⟩

/-! ## C10 — downloadAssets interface totality -/

/-- `downloadAsset` at `url` never returns, whatever the fuel: what an
infinite redirect chain does to the whole call. -/
def downloadAssetNeverReturns (env : AssetEnv) (opts : AssetOptions)
    (destDir : String) (url : String) : Prop :=
  ∀ fuel, downloadAssetModel env opts destDir fuel url = none

theorem cycle_downloadFile_none :
    ∀ fuel, downloadFile fetchCycle 5000 (10 * 1024 * 1024) fuel
      "http://c.com/loop.png" = none := by
  intro fuel
  induction fuel with
  | zero => decide
  | succ n ih =>
    have hstep : downloadStep fetchCycle 5000 (10 * 1024 * 1024) "http://c.com/loop.png" =
        FetchStep.redirect "http://c.com/loop.png" := by decide
    simp only [downloadFile, hstep]
    exact ih

/-- C10 counterexample: a redirect cycle makes `downloadAsset` — and with
it `downloadAssets` — never return for that URL: the function is not total
at its public interface once the transport answers with a redirect loop. -/
theorem c10_redirect_cycle_diverges_ctrex :
    downloadAssetNeverReturns assetEnvCycle {} "img" "http://c.com/loop.png" := by
  intro fuel
  have hres : resolveAssetUrl assetEnvCycle {} "http://c.com/loop.png" =
      some "http://c.com/loop.png" := by decide
  have hdata : strStartsWith "http://c.com/loop.png" "data:" = false := by decide
  have hparse : parseUrlChars "http://c.com/loop.png".toList =
      some { scheme := "http".toList, host := "c.com".toList,
             pathname := "/loop.png".toList, search := [] } := by decide
  simp only [downloadAssetModel, hres, hdata, hparse, Bool.false_eq_true, if_false]
  rw [show assetEnvCycle.fetch = fetchCycle from rfl, cycle_downloadFile_none fuel]

theorem downloadStep_done_downloadFile (fetch : String → FetchOutcome)
    (timeout maxSize : Nat) (url : String) (r : Except String Nat)
    (h : downloadStep fetch timeout maxSize url = FetchStep.done r) :
    ∀ fuel, downloadFile fetch timeout maxSize fuel url = some r := by
  intro fuel
  cases fuel with
  | zero => simp only [downloadFile, h]
  | succ n => simp only [downloadFile, h]

theorem downloadAsset_url (env : AssetEnv) (opts : AssetOptions) (destDir : String)
    (fuel : Nat) (url : String) (r : AssetDownloadResult)
    (h : downloadAssetModel env opts destDir fuel url = some r) : r.url = url := by
  unfold downloadAssetModel at h
  split at h
  · cases h; rfl
  · split at h
    · cases h; rfl
    · split at h
      · cases h; rfl
      · split at h
        · cases h
        · cases h; rfl
        · cases h; rfl

theorem downloadAsset_shape (env : AssetEnv) (opts : AssetOptions) (destDir : String)
    (fuel : Nat) (url : String) (r : AssetDownloadResult)
    (h : downloadAssetModel env opts destDir fuel url = some r) :
    (r.success = true → r.localPath.isSome ∧ r.size.isSome ∧ r.error = none) ∧
    (r.success = false → r.localPath = none ∧ r.size = none ∧ r.error.isSome) := by
  unfold downloadAssetModel at h
  split at h
  · cases h
    exact ⟨fun hs => Bool.noConfusion hs, fun _ => ⟨rfl, rfl, rfl⟩⟩
  · split at h
    · cases h
      exact ⟨fun hs => Bool.noConfusion hs, fun _ => ⟨rfl, rfl, rfl⟩⟩
    · split at h
      · cases h
        exact ⟨fun hs => Bool.noConfusion hs, fun _ => ⟨rfl, rfl, rfl⟩⟩
      · split at h
        · cases h
        · cases h
          exact ⟨fun _ => ⟨rfl, rfl, rfl⟩, fun hs => Bool.noConfusion hs⟩
        · cases h
          exact ⟨fun hs => Bool.noConfusion hs, fun _ => ⟨rfl, rfl, rfl⟩⟩

theorem promiseAll_assets (env : AssetEnv) (opts : AssetOptions) (destDir : String)
    (fuel : Nat) :
    ∀ l : List String,
      (∀ u ∈ l, (downloadAssetModel env opts destDir fuel u).isSome) →
      ∃ brs, promiseAll (l.map (downloadAssetModel env opts destDir fuel)) = some brs ∧
        brs.map (fun r => r.url) = l := by
  intro l
  induction l with
  | nil => intro _; exact ⟨[], rfl, rfl⟩
  | cons u rest ih =>
    intro h
    obtain ⟨b, hb⟩ := Option.isSome_iff_exists.1 (h u (List.mem_cons_self u rest))
    obtain ⟨brs, hbrs, hmap⟩ := ih (fun x hx => h x (List.mem_cons_of_mem u hx))
    refine ⟨b :: brs, ?_, ?_⟩
    · rw [List.map_cons, hb]
      show (promiseAll (rest.map (downloadAssetModel env opts destDir fuel))).map
        (fun l => b :: l) = some (b :: brs)
      rw [hbrs]
      rfl
    · rw [List.map_cons, hmap, downloadAsset_url env opts destDir fuel u b hb]

theorem trace_map_result (brs : List AssetDownloadResult) (completed total : Nat) :
    (brs.enum.map (fun p => (completed + p.1 + 1, total, p.2))).map
      (fun e => e.2.2) = brs := by
  rw [List.map_map]
  exact List.enum_map_snd brs

theorem trace_map_counter (brs : List AssetDownloadResult) (completed total : Nat) :
    (brs.enum.map (fun p => (completed + p.1 + 1, total, p.2))).map
      (fun e => e.1) = List.range' (completed + 1) brs.length := by
  rw [List.map_map]
  rw [show ((fun e : Nat × Nat × AssetDownloadResult => e.1) ∘
      (fun p : Nat × AssetDownloadResult => (completed + p.1 + 1, total, p.2))) =
    ((fun i => completed + i + 1) ∘ Prod.fst) from rfl]
  rw [← List.map_map, List.enum_map_fst, List.range'_eq_map_range]
  apply List.map_congr_left
  intro i _
  omega

theorem trace_total (brs : List AssetDownloadResult) (completed total : Nat) :
    ∀ e ∈ brs.enum.map (fun p => (completed + p.1 + 1, total, p.2)),
      e.2.1 = total := by
  intro e he
  rcases List.mem_map.1 he with ⟨p, _, hpe⟩
  rw [← hpe]

theorem range'_glue (s m n : Nat) :
    List.range' s m ++ List.range' (s + m) n = List.range' s (m + n) := by
  have h := List.range'_append s m n 1
  rw [one_mul, Nat.add_comm n m] at h
  exact h

theorem downloadAssetsGo_spec (env : AssetEnv) (opts : AssetOptions)
    (destDir : String) (fuel total conc : Nat) :
    ∀ (bound : Nat) (l : List String), l.length ≤ bound → ∀ (completed : Nat),
      (∀ u ∈ l, (downloadAssetModel env opts destDir fuel u).isSome) →
      ∃ rs tr,
        downloadAssetsGo env opts destDir fuel total conc l completed = some (rs, tr) ∧
        rs.map (fun r => r.url) = l ∧
        tr.map (fun e => e.2.2) = rs ∧
        tr.map (fun e => e.1) = List.range' (completed + 1) l.length ∧
        ∀ e ∈ tr, e.2.1 = total := by
  intro bound
  induction bound with
  | zero =>
    intro l hl completed _
    have hnil : l = [] := List.eq_nil_of_length_eq_zero (Nat.le_zero.1 hl)
    subst hnil
    refine ⟨[], [], ?_, rfl, rfl, rfl, fun e he => absurd he (List.not_mem_nil e)⟩
    simp [downloadAssetsGo]
  | succ bound ih =>
    intro l hl completed hsome
    cases l with
    | nil =>
      refine ⟨[], [], ?_, rfl, rfl, rfl, fun e he => absurd he (List.not_mem_nil e)⟩
      simp [downloadAssetsGo]
    | cons u rest =>
      have hbatch : ∀ x ∈ u :: rest.take (conc - 1),
          (downloadAssetModel env opts destDir fuel x).isSome := by
        intro x hx
        rcases List.mem_cons.1 hx with rfl | hx
        · exact hsome x (List.mem_cons_self x rest)
        · exact hsome x (List.mem_cons_of_mem u (List.take_subset _ rest hx))
      obtain ⟨brs, hbrs, hbrsmap⟩ := promiseAll_assets env opts destDir fuel
        (u :: rest.take (conc - 1)) hbatch
      have hafterlen : (rest.drop (conc - 1)).length ≤ bound := by
        have h1 : (rest.drop (conc - 1)).length ≤ rest.length := by
          rw [List.length_drop]; omega
        have h2 : rest.length ≤ bound := by
          have := hl
          simp only [List.length_cons] at this
          omega
        omega
      obtain ⟨rs', tr', hgo, hmap', htr2', htr1', htot'⟩ := ih (rest.drop (conc - 1))
        hafterlen (completed + brs.length)
        (fun x hx => hsome x (List.mem_cons_of_mem u (List.drop_subset _ rest hx)))
      refine ⟨brs ++ rs', brs.enum.map (fun p => (completed + p.1 + 1, total, p.2)) ++ tr',
        ?_, ?_, ?_, ?_, ?_⟩
      · simp only [downloadAssetsGo]
        rw [hbrs]
        dsimp only
        rw [hgo]
      · rw [List.map_append, hbrsmap, hmap']
        have : (u :: rest.take (conc - 1)) ++ rest.drop (conc - 1) = u :: rest := by
          rw [List.cons_append, List.take_append_drop]
        rw [this]
      · rw [List.map_append, trace_map_result, htr2']
      · rw [List.map_append, trace_map_counter, htr1']
        have hlen : brs.length = (u :: rest.take (conc - 1)).length := by
          rw [← hbrsmap, List.length_map]
        rw [hlen]
        have := range'_glue (completed + 1) (u :: rest.take (conc - 1)).length
          (rest.drop (conc - 1)).length
        rw [show completed + 1 + (u :: rest.take (conc - 1)).length =
          completed + (u :: rest.take (conc - 1)).length + 1 from by omega] at this
        rw [this]
        have : (u :: rest.take (conc - 1)).length + (rest.drop (conc - 1)).length =
            (u :: rest).length := by
          simp only [List.length_cons, List.length_take, List.length_drop]
          omega
        rw [this]
      · intro e he
        rcases List.mem_append.1 he with he | he
        · exact trace_total brs completed total e he
        · exact htot' e he

theorem streamChunks_oversize (maxSize : Nat) :
    ∀ (chunks : List Nat) (acc : Nat), acc ≤ maxSize → acc + chunks.sum > maxSize →
      streamChunks maxSize chunks acc =
        Except.error ("File too large: exceeded " ++ toString maxSize ++ " bytes") := by
  intro chunks
  induction chunks with
  | nil => intro acc h1 h2; simp at h2; omega
  | cons c rest ih =>
    intro acc h1 h2
    unfold streamChunks
    by_cases hc : acc + c > maxSize
    · rw [if_pos hc]
    · rw [if_neg hc]
      apply ih (acc + c) (by omega)
      simp only [List.sum_cons] at h2
      omega

/-- Evaluation of `downloadAsset` past the resolution, data-URL and
validation gates, down to the `downloadFile` outcome. -/
theorem downloadAsset_eval (env : AssetEnv) (opts : AssetOptions) (destDir : String)
    (fuel : Nat) (url ru : String) (p : UrlParts)
    (h1 : resolveAssetUrl env opts url = some ru)
    (h2 : strStartsWith ru "data:" = false)
    (h3 : parseUrlChars ru.toList = some p) :
    downloadAssetModel env opts destDir fuel url =
      match downloadFile env.fetch opts.timeout opts.maxSize fuel ru with
      | none => none
      | some (Except.ok size) =>
        some { url := url
               localPath := some (destDir ++ "/" ++
                 getUniqueFilename env.files (sanitizeFilename p.pathname.asString))
               success := true, error := none, size := some size }
      | some (Except.error e) =>
        some { url := url, localPath := none, success := false
               error := some e, size := none } := by
  simp only [downloadAssetModel, h1, h2, h3, Bool.false_eq_true, if_false]

/-- C10 (amended): provided every requested URL's redirect chain is
finite (each `downloadAsset` settles — refuted in general by the
redirect-cycle counterexample), `downloadAssets` returns exactly one
`AssetDownloadResult` per input URL, in input order, and fires the
progress callback exactly once per URL with the completed count running
from 1 to the total; every result echoes its input URL, successes carry a
local path and size, and every failure mode — unresolvable input,
data URL, unparsable resolved URL, timeout, non-200 status, and oversize
by `Content-Length` or by streamed bytes — is encoded as a
`success := false` result with an error message rather than an
exception. -/
theorem c10_downloadAssets_interface :
    (∀ (env : AssetEnv) (opts : AssetOptions) (destDir : String) (conc fuel : Nat)
        (urls : List String),
      (∀ u ∈ urls, (downloadAssetModel env opts destDir fuel u).isSome) →
      ∃ rs tr,
        downloadAssetsModel env opts destDir conc fuel urls = some (rs, tr) ∧
        rs.map (fun r => r.url) = urls ∧
        tr.map (fun e => e.2.2) = rs ∧
        tr.map (fun e => e.1) = List.range' 1 urls.length ∧
        (∀ e ∈ tr, e.2.1 = urls.length)) ∧
    (∀ (env : AssetEnv) (opts : AssetOptions) (destDir : String) (fuel : Nat)
        (url : String) (r : AssetDownloadResult),
      downloadAssetModel env opts destDir fuel url = some r →
      r.url = url ∧
      (r.success = true → r.localPath.isSome ∧ r.size.isSome ∧ r.error = none) ∧
      (r.success = false → r.localPath = none ∧ r.size = none ∧ r.error.isSome)) ∧
    (∀ (env : AssetEnv) (opts : AssetOptions) (destDir : String) (fuel : Nat)
        (url : String),
      resolveAssetUrl env opts url = none →
      downloadAssetModel env opts destDir fuel url =
        some { url := url, localPath := none, success := false
               error := some "Invalid URL", size := none }) ∧
    (∀ (env : AssetEnv) (opts : AssetOptions) (destDir : String) (fuel : Nat)
        (url ru : String),
      resolveAssetUrl env opts url = some ru → strStartsWith ru "data:" = true →
      downloadAssetModel env opts destDir fuel url =
        some { url := url, localPath := none, success := false
               error := some "Skipped data URL (embedded content)", size := none }) ∧
    (∀ (env : AssetEnv) (opts : AssetOptions) (destDir : String) (fuel : Nat)
        (url ru : String),
      resolveAssetUrl env opts url = some ru → strStartsWith ru "data:" = false →
      parseUrlChars ru.toList = none →
      downloadAssetModel env opts destDir fuel url =
        some { url := url, localPath := none, success := false
               error := some "Invalid URL", size := none }) ∧
    (∀ (env : AssetEnv) (opts : AssetOptions) (destDir : String) (fuel : Nat)
        (url ru : String) (p : UrlParts),
      resolveAssetUrl env opts url = some ru → strStartsWith ru "data:" = false →
      parseUrlChars ru.toList = some p → env.fetch ru = FetchOutcome.timeout →
      downloadAssetModel env opts destDir fuel url =
        some { url := url, localPath := none, success := false
               error := some ("Download timed out after " ++ toString opts.timeout ++ "ms")
               size := none }) ∧
    (∀ (env : AssetEnv) (opts : AssetOptions) (destDir : String) (fuel : Nat)
        (url ru : String) (p : UrlParts) (resp : HttpResponseM),
      resolveAssetUrl env opts url = some ru → strStartsWith ru "data:" = false →
      parseUrlChars ru.toList = some p → env.fetch ru = FetchOutcome.response resp →
      ¬(resp.statusCode = 301 ∨ resp.statusCode = 302) → resp.statusCode ≠ 200 →
      downloadAssetModel env opts destDir fuel url =
        some { url := url, localPath := none, success := false
               error := some ("HTTP " ++ toString resp.statusCode), size := none }) ∧
    (∀ (env : AssetEnv) (opts : AssetOptions) (destDir : String) (fuel : Nat)
        (url ru : String) (p : UrlParts) (resp : HttpResponseM),
      resolveAssetUrl env opts url = some ru → strStartsWith ru "data:" = false →
      parseUrlChars ru.toList = some p → env.fetch ru = FetchOutcome.response resp →
      ¬(resp.statusCode = 301 ∨ resp.statusCode = 302) → resp.statusCode = 200 →
      resp.contentLength.getD 0 > opts.maxSize →
      downloadAssetModel env opts destDir fuel url =
        some { url := url, localPath := none, success := false
               error := some ("File too large: " ++ toString (resp.contentLength.getD 0) ++
                 " bytes (max: " ++ toString opts.maxSize ++ ")")
               size := none }) ∧
    (∀ (env : AssetEnv) (opts : AssetOptions) (destDir : String) (fuel : Nat)
        (url ru : String) (p : UrlParts) (resp : HttpResponseM),
      resolveAssetUrl env opts url = some ru → strStartsWith ru "data:" = false →
      parseUrlChars ru.toList = some p → env.fetch ru = FetchOutcome.response resp →
      ¬(resp.statusCode = 301 ∨ resp.statusCode = 302) → resp.statusCode = 200 →
      resp.contentLength.getD 0 ≤ opts.maxSize → resp.chunks.sum > opts.maxSize →
      downloadAssetModel env opts destDir fuel url =
        some { url := url, localPath := none, success := false
               error := some ("File too large: exceeded " ++ toString opts.maxSize ++ " bytes")
               size := none }) := by
  refine ⟨?_, ?_, ?_, ?_, ?_, ?_, ?_, ?_, ?_⟩
  · intro env opts destDir conc fuel urls hsome
    exact downloadAssetsGo_spec env opts destDir fuel urls.length conc urls.length
      urls (le_refl _) 0 hsome
  · intro env opts destDir fuel url r h
    exact ⟨downloadAsset_url env opts destDir fuel url r h,
      (downloadAsset_shape env opts destDir fuel url r h).1,
      (downloadAsset_shape env opts destDir fuel url r h).2⟩
  · intro env opts destDir fuel url h
    simp only [downloadAssetModel, h]
  · intro env opts destDir fuel url ru h1 h2
    simp only [downloadAssetModel, h1, h2, if_true]
  · intro env opts destDir fuel url ru h1 h2 h3
    simp only [downloadAssetModel, h1, h2, h3, Bool.false_eq_true, if_false]
  · intro env opts destDir fuel url ru p h1 h2 h3 h4
    rw [downloadAsset_eval env opts destDir fuel url ru p h1 h2 h3]
    have hstep : downloadStep env.fetch opts.timeout opts.maxSize ru =
        FetchStep.done (Except.error
          ("Download timed out after " ++ toString opts.timeout ++ "ms")) := by
      simp only [downloadStep, h4]
    rw [downloadStep_done_downloadFile env.fetch opts.timeout opts.maxSize ru _ hstep fuel]
  · intro env opts destDir fuel url ru p resp h1 h2 h3 h4 hred h200
    rw [downloadAsset_eval env opts destDir fuel url ru p h1 h2 h3]
    have hstep : downloadStep env.fetch opts.timeout opts.maxSize ru =
        FetchStep.done (Except.error ("HTTP " ++ toString resp.statusCode)) := by
      simp only [downloadStep, h4, if_neg hred, downloadBody, if_pos h200]
    rw [downloadStep_done_downloadFile env.fetch opts.timeout opts.maxSize ru _ hstep fuel]
  · intro env opts destDir fuel url ru p resp h1 h2 h3 h4 hred h200 hbig
    rw [downloadAsset_eval env opts destDir fuel url ru p h1 h2 h3]
    have hstep : downloadStep env.fetch opts.timeout opts.maxSize ru =
        FetchStep.done (Except.error
          ("File too large: " ++ toString (resp.contentLength.getD 0) ++
            " bytes (max: " ++ toString opts.maxSize ++ ")")) := by
      simp only [downloadStep, h4, downloadBody, h200]
      rw [if_neg (show ¬((200 : Nat) = 301 ∨ (200 : Nat) = 302) from by omega),
        if_neg (fun hne : (200 : Nat) ≠ 200 => hne rfl), if_pos hbig]
    rw [downloadStep_done_downloadFile env.fetch opts.timeout opts.maxSize ru _ hstep fuel]
  · intro env opts destDir fuel url ru p resp h1 h2 h3 h4 hred h200 hsmall hbig
    rw [downloadAsset_eval env opts destDir fuel url ru p h1 h2 h3]
    have hstream := streamChunks_oversize opts.maxSize resp.chunks 0 (Nat.zero_le _)
      (by omega)
    have hstep : downloadStep env.fetch opts.timeout opts.maxSize ru =
        FetchStep.done (Except.error
          ("File too large: exceeded " ++ toString opts.maxSize ++ " bytes")) := by
      simp only [downloadStep, h4, downloadBody, h200]
      rw [if_neg (show ¬((200 : Nat) = 301 ∨ (200 : Nat) = 302) from by omega),
        if_neg (fun hne : (200 : Nat) ≠ 200 => hne rfl),
        if_neg (show ¬resp.contentLength.getD 0 > opts.maxSize from by omega), hstream]
    rw [downloadStep_done_downloadFile env.fetch opts.timeout opts.maxSize ru _ hstep fuel]

/-- Witness for C10: the batch contract at a concrete transport with a
redirect chain, a data URL and an unreachable host. -/
theorem c10_downloadAssets_interface_witness :
    ∃ rs tr,
      downloadAssetsModel assetEnvChain {} "img" 5 5
        ["http://h.com/a.png", "data:image/png;base64,xx", "http://h.com/z.png"] =
        some (rs, tr) ∧
      rs.map (fun r => r.url) =
        ["http://h.com/a.png", "data:image/png;base64,xx", "http://h.com/z.png"] ∧
      tr.map (fun e => e.2.2) = rs ∧
      tr.map (fun e => e.1) = List.range' 1 3 ∧
      (∀ e ∈ tr, e.2.1 = 3) :=
  c10_downloadAssets_interface.1 assetEnvChain {} "img" 5 5
    ["http://h.com/a.png", "data:image/png;base64,xx", "http://h.com/z.png"]
    (by decide)

/-! ## C2 — termination and the page budget -/

/-- The URLs of the universe that are neither queued nor visited (by
normalization). -/
def unreached (U : Finset String) (f : List String) (v : Finset String) :
    Finset String :=
  U.filter (fun x => x ∉ f ∧ normalizeUrl x ∉ v)

/-- The termination measure of the crawl loop: frontier length plus the
unreached part of the universe. -/
def crawlMeasure (U : Finset String) (s : CrawlState) : Nat :=
  s.urlsToVisit.length + (unreached U s.urlsToVisit s.visitedUrls).card

/-- The site only links inside the finite universe `U`. -/
def EnvLinksIn (env : PageEnv) (U : Finset String) : Prop :=
  ∀ u pd, env u = some pd → ∀ l ∈ pd.links, l.href ∈ U

theorem shouldCrawl_not_visited (baseUrl : String) (visited : Finset String)
    (url : String) (h : shouldCrawl baseUrl visited url = true) :
    normalizeUrl url ∉ visited := by
  unfold shouldCrawl at h
  cases hb : parseUrlChars baseUrl.toList with
  | none => rw [hb] at h; cases h
  | some bp =>
    cases hu : parseUrlChars url.toList with
    | none => rw [hb, hu] at h; cases h
    | some up =>
      rw [hb, hu] at h
      have h' : (if hostnameOfParts up ≠ hostnameOfParts bp then false
          else if skipExtensions.any (fun ext => ext.isSuffixOf (up.pathname.map lowerChar))
            then false
          else if normalizeUrl url ∈ visited then false else true) = true := h
      by_cases h1 : hostnameOfParts up ≠ hostnameOfParts bp
      · rw [if_pos h1] at h'; cases h'
      · rw [if_neg h1] at h'
        by_cases h2 : skipExtensions.any (fun ext => ext.isSuffixOf (up.pathname.map lowerChar)) = true
        · rw [if_pos h2] at h'; cases h'
        · rw [if_neg h2] at h'
          by_cases h3 : normalizeUrl url ∈ visited
          · rw [if_pos h3] at h'; cases h'
          · exact h3

theorem linksToCrawl_spec (b : String) (visited' : Finset String) (pd : PageDataM) :
    ∀ x ∈ linksToCrawl b visited' pd,
      (∃ l ∈ pd.links, l.href = x) ∧ shouldCrawl b visited' x = true := by
  intro x hx
  unfold linksToCrawl at hx
  rcases List.mem_map.1 hx with ⟨l, hl, hle⟩
  have hfil := List.of_mem_filter hl
  rcases Bool.and_eq_true_iff.1 hfil with ⟨_, h2⟩
  exact ⟨⟨l, List.mem_of_mem_filter hl, hle⟩, hle ▸ h2⟩

theorem pushNew_spec : ∀ (ls f : List String),
    ∃ L, pushNew f ls = f ++ L ∧ L.Nodup ∧ ∀ x ∈ L, x ∈ ls ∧ x ∉ f := by
  intro ls
  induction ls with
  | nil =>
    intro f
    exact ⟨[], by simp [pushNew], List.nodup_nil, fun x hx => absurd hx (List.not_mem_nil x)⟩
  | cons l ls ih =>
    intro f
    by_cases hc : f.contains l
    · obtain ⟨L, he, hnd, hsp⟩ := ih f
      refine ⟨L, ?_, hnd, ?_⟩
      · show (l :: ls).foldl (fun acc x => if acc.contains x then acc else acc ++ [x]) f = f ++ L
        rw [List.foldl_cons, if_pos hc]
        exact he
      · intro x hx
        exact ⟨List.mem_cons_of_mem l (hsp x hx).1, (hsp x hx).2⟩
    · obtain ⟨L, he, hnd, hsp⟩ := ih (f ++ [l])
      have hlf : l ∉ f := by
        intro hmem
        exact hc (List.elem_eq_true_of_mem hmem)
      refine ⟨l :: L, ?_, ?_, ?_⟩
      · show (l :: ls).foldl (fun acc x => if acc.contains x then acc else acc ++ [x]) f =
          f ++ l :: L
        rw [List.foldl_cons, if_neg hc]
        show pushNew (f ++ [l]) ls = f ++ l :: L
        rw [he, List.append_assoc]
        rfl
      · refine List.Nodup.cons ?_ hnd
        intro hmem
        exact (hsp l hmem).2 (List.mem_append.2 (Or.inr (List.mem_singleton.2 rfl)))
      · intro x hx
        rcases List.mem_cons.1 hx with rfl | hx
        · exact ⟨List.mem_cons_self x ls, hlf⟩
        · refine ⟨List.mem_cons_of_mem l (hsp x hx).1, fun hmem => (hsp x hx).2 ?_⟩
          exact List.mem_append.2 (Or.inl hmem)

theorem unreached_skip (U : Finset String) (u : String) (rest : List String)
    (v : Finset String) (hv : normalizeUrl u ∈ v) :
    unreached U rest v = unreached U (u :: rest) v := by
  unfold unreached
  apply Finset.ext
  intro x
  simp only [Finset.mem_filter, List.mem_cons]
  constructor
  · rintro ⟨hU, hrest, hnv⟩
    refine ⟨hU, ?_, hnv⟩
    rintro (rfl | hx)
    · exact hnv hv
    · exact hrest hx
  · rintro ⟨hU, hcons, hnv⟩
    exact ⟨hU, fun hx => hcons (Or.inr hx), hnv⟩

theorem unreached_shrink (U : Finset String) (u : String) (rest front : List String)
    (v : Finset String) (hfront : ∀ x, x ∈ rest → x ∈ front) :
    unreached U front (insert (normalizeUrl u) v) ⊆ unreached U (u :: rest) v := by
  intro x hx
  simp only [unreached, Finset.mem_filter, Finset.mem_insert, List.mem_cons] at hx ⊢
  obtain ⟨hU, hfr, hnv⟩ := hx
  push_neg at hnv
  refine ⟨hU, ?_, hnv.2⟩
  rintro (rfl | hx)
  · exact hnv.1 rfl
  · exact hfr (hfront x hx)

theorem crawlIter_measure (env : PageEnv) (cfg : CrawlConfig) (U : Finset String)
    (hE : EnvLinksIn env U) (s : CrawlState) (u : String) (rest : List String)
    (hf : s.urlsToVisit = u :: rest) :
    crawlMeasure U (crawlIter env cfg s u rest) < crawlMeasure U s := by
  have hms : crawlMeasure U s =
      rest.length + 1 + (unreached U (u :: rest) s.visitedUrls).card := by
    unfold crawlMeasure
    rw [hf, List.length_cons]
  unfold crawlIter
  by_cases hv : normalizeUrl u ∈ s.visitedUrls
  · simp only [if_pos hv]
    rw [hms]
    unfold crawlMeasure
    dsimp only
    rw [unreached_skip U u rest s.visitedUrls hv]
    omega
  · simp only [if_neg hv]
    cases he : env u with
    | none =>
      rw [hms]
      unfold crawlMeasure
      dsimp only
      have hsub := unreached_shrink U u rest rest s.visitedUrls (fun x hx => hx)
      have hc := Finset.card_le_card hsub
      omega
    | some pd =>
      rw [hms]
      unfold crawlMeasure
      dsimp only
      obtain ⟨L, hpush, hnd, hsp⟩ := pushNew_spec
        (linksToCrawl cfg.baseUrl (insert (normalizeUrl u) s.visitedUrls) pd) rest
      rw [hpush]
      set A := unreached U (u :: rest) s.visitedUrls with hA
      have hLA : L.toFinset ⊆ A := by
        intro x hx
        rw [List.mem_toFinset] at hx
        obtain ⟨hxl, hxrest⟩ := hsp x hx
        obtain ⟨⟨l, hl, hle⟩, hsc⟩ := linksToCrawl_spec cfg.baseUrl _ pd x hxl
        have hxU : x ∈ U := hle ▸ hE u pd he l hl
        have hnv := shouldCrawl_not_visited cfg.baseUrl _ x hsc
        simp only [Finset.mem_insert] at hnv
        push_neg at hnv
        simp only [hA, unreached, Finset.mem_filter, List.mem_cons]
        refine ⟨hxU, ?_, hnv.2⟩
        rintro (rfl | hx')
        · exact hnv.1 rfl
        · exact hxrest hx'
      have hsub : unreached U (rest ++ L) (insert (normalizeUrl u) s.visitedUrls) ⊆
          A \ L.toFinset := by
        intro x hx
        simp only [unreached, Finset.mem_filter, List.mem_append] at hx
        obtain ⟨hU, hfr, hnv⟩ := hx
        push_neg at hfr
        rw [Finset.mem_sdiff]
        constructor
        · exact unreached_shrink U u rest rest s.visitedUrls (fun y hy => hy)
            (by
              simp only [unreached, Finset.mem_filter]
              exact ⟨hU, hfr.1, hnv⟩)
        · rw [List.mem_toFinset]
          exact hfr.2
      have hcard : (unreached U (rest ++ L) (insert (normalizeUrl u) s.visitedUrls)).card ≤
          A.card - L.toFinset.card := by
        calc (unreached U (rest ++ L) (insert (normalizeUrl u) s.visitedUrls)).card
            ≤ (A \ L.toFinset).card := Finset.card_le_card hsub
          _ = A.card - L.toFinset.card := Finset.card_sdiff hLA
      have htf : L.toFinset.card = L.length := List.toFinset_card_of_nodup hnd
      have hle : L.toFinset.card ≤ A.card := Finset.card_le_card hLA
      rw [List.length_append]
      omega

theorem crawlLoop_terminates (env : PageEnv) (cfg : CrawlConfig) (U : Finset String)
    (hE : EnvLinksIn env U) :
    ∀ (fuel : Nat) (s : CrawlState), crawlMeasure U s ≤ fuel →
      ∃ s', crawlLoop env cfg fuel s = some s' := by
  intro fuel
  induction fuel with
  | zero =>
    intro s hm
    have hnil : s.urlsToVisit = [] := by
      have : s.urlsToVisit.length = 0 := by
        unfold crawlMeasure at hm
        omega
      exact List.eq_nil_of_length_eq_zero this
    refine ⟨s, ?_⟩
    simp [crawlLoop, crawlDone, hnil]
  | succ fuel ih =>
    intro s hm
    by_cases hdone : crawlDone cfg s = true
    · exact ⟨s, by simp [crawlLoop, hdone]⟩
    · cases hf : s.urlsToVisit with
      | nil =>
        exfalso
        apply hdone
        simp [crawlDone, hf]
      | cons u rest =>
        have hd := crawlIter_measure env cfg U hE s u rest hf
        obtain ⟨s', hs'⟩ := ih (crawlIter env cfg s u rest) (by omega)
        refine ⟨s', ?_⟩
        simp only [crawlLoop, hdone, Bool.false_eq_true, if_false, hf]
        exact hs'

theorem crawlIter_pages_le (env : PageEnv) (cfg : CrawlConfig) (s : CrawlState)
    (u : String) (rest : List String) :
    (crawlIter env cfg s u rest).pages.length ≤ s.pages.length + 1 := by
  unfold crawlIter
  by_cases hv : normalizeUrl u ∈ s.visitedUrls
  · simp [if_pos hv]
  · simp only [if_neg hv]
    cases env u with
    | none => simp
    | some pd => simp

theorem crawlLoop_pages_bound (env : PageEnv) (cfg : CrawlConfig)
    (hM : 0 < cfg.maxPages) :
    ∀ (fuel : Nat) (s s' : CrawlState), s.pages.length ≤ cfg.maxPages →
      crawlLoop env cfg fuel s = some s' → s'.pages.length ≤ cfg.maxPages := by
  intro fuel
  induction fuel with
  | zero =>
    intro s s' hb hloop
    simp only [crawlLoop] at hloop
    split at hloop
    · cases hloop; exact hb
    · cases hloop
  | succ fuel ih =>
    intro s s' hb hloop
    simp only [crawlLoop] at hloop
    by_cases hdone : crawlDone cfg s = true
    · rw [if_pos hdone] at hloop
      cases hloop
      exact hb
    · rw [if_neg hdone] at hloop
      cases hf : s.urlsToVisit with
      | nil =>
        rw [hf] at hloop
        cases hloop
        exact hb
      | cons u rest =>
        rw [hf] at hloop
        have hlt : s.pages.length < cfg.maxPages := by
          by_contra hge
          apply hdone
          unfold crawlDone
          have h0 : decide (cfg.maxPages = 0) = false := decide_eq_false (by omega)
          have h1 : decide (s.pages.length < cfg.maxPages) = false := decide_eq_false hge
          rw [h0, h1]
          simp
        apply ih (crawlIter env cfg s u rest) s'
          (by have := crawlIter_pages_le env cfg s u rest; omega) hloop

/-- C2: on a site whose pages only link inside a finite universe `U`
(links back to visited pages included), the crawl loop terminates within
`|U| + 1` dequeues, and when `maxPages > 0` it collects at most
`maxPages` pages; with `maxPages = 0` the page-count guard imposes no
bound — the concrete three-page site is crawled in full (3 pages > 0)
under `maxPages = 0`. -/
theorem c2_crawl_terminates_within_budget :
    (∀ (env : PageEnv) (cfg : CrawlConfig) (U : Finset String),
      EnvLinksIn env U →
      ∃ s, crawlLoop env cfg (U.card + 1) (crawlInit cfg) = some s ∧
        (0 < cfg.maxPages → s.pages.length ≤ cfg.maxPages)) ∧
    ((crawlLoop envA cfgA 10 (crawlInit cfgA)).map (fun s => s.pages.length) = some 3 ∧
      cfgA.maxPages = 0) := by
  constructor
  · intro env cfg U hE
    have hm : crawlMeasure U (crawlInit cfg) ≤ U.card + 1 := by
      unfold crawlMeasure crawlInit
      simp only [List.length_singleton]
      have := Finset.card_le_card (Finset.filter_subset
        (fun x => x ∉ [cfg.baseUrl] ∧ normalizeUrl x ∉ (∅ : Finset String)) U)
      unfold unreached
      omega
    obtain ⟨s, hs⟩ := crawlLoop_terminates env cfg U hE (U.card + 1) (crawlInit cfg) hm
    refine ⟨s, hs, ?_⟩
    intro hM
    exact crawlLoop_pages_bound env cfg hM (U.card + 1) (crawlInit cfg) s
      (by simp [crawlInit]) hs
  · exact ⟨by decide, rfl⟩

/-- Witness for C2 at the concrete three-page site with its five-URL
universe. -/
theorem c2_crawl_terminates_within_budget_witness :
    ∃ s, crawlLoop envA cfgB (uniA.card + 1) (crawlInit cfgB) = some s ∧
      (0 < cfgB.maxPages → s.pages.length ≤ cfgB.maxPages) :=
  c2_crawl_terminates_within_budget.1 envA cfgB uniA
    (by
      intro u pd h l hl
      unfold envA at h
      split at h
      · cases h
        simp only [pageOf] at hl
        rcases List.mem_cons.1 hl with rfl | hl
        · decide
        · rcases List.mem_cons.1 hl with rfl | hl
          · decide
          · rcases List.mem_cons.1 hl with rfl | hl
            · decide
            · rcases List.mem_cons.1 hl with rfl | hl
              · decide
              · exact absurd hl (List.not_mem_nil l)
      · split at h
        · cases h
          simp only [pageOf] at hl
          rcases List.mem_cons.1 hl with rfl | hl
          · decide
          · exact absurd hl (List.not_mem_nil l)
        · split at h
          · cases h
            simp only [pageOf] at hl
            exact absurd hl (List.not_mem_nil l)
          · cases h)

/-! ## C9 — idempotence of normalizeUrl -/

theorem toList_asString (l : List Char) : l.asString.toList = l := rfl

theorem asString_toList (s : String) : s.toList.asString = s := rfl

theorem charOfNat_toNat (n : Nat) (h : n.isValidChar) : (Char.ofNat n).toNat = n := by
  unfold Char.ofNat
  rw [dif_pos h]
  rfl

theorem lowerChar_bounds (c : Char) (h : 'A' ≤ c ∧ c ≤ 'Z') :
    (lowerChar c).toNat = c.toNat + 32 ∧ 97 ≤ (lowerChar c).toNat ∧
      (lowerChar c).toNat ≤ 122 := by
  have h1 : 65 ≤ c.toNat := by
    have := h.1
    rw [Char.le_def] at this
    exact this
  have h2 : c.toNat ≤ 90 := by
    have := h.2
    rw [Char.le_def] at this
    exact this
  have hval : (c.toNat + 32).isValidChar := Or.inl (by omega)
  have ht : (lowerChar c).toNat = c.toNat + 32 := by
    unfold lowerChar
    rw [if_pos h]
    exact charOfNat_toNat _ hval
  exact ⟨ht, by omega, by omega⟩

theorem lowerChar_idem (c : Char) : lowerChar (lowerChar c) = lowerChar c := by
  by_cases h : 'A' ≤ c ∧ c ≤ 'Z'
  · obtain ⟨_, hlo, hhi⟩ := lowerChar_bounds c h
    show (if 'A' ≤ lowerChar c ∧ lowerChar c ≤ 'Z' then
      Char.ofNat ((lowerChar c).toNat + 32) else lowerChar c) = lowerChar c
    rw [if_neg]
    intro hcon
    have h2 := hcon.2
    rw [Char.le_def] at h2
    have h2' : (lowerChar c).toNat ≤ 90 := h2
    omega
  · show (if 'A' ≤ lowerChar c ∧ lowerChar c ≤ 'Z' then
      Char.ofNat ((lowerChar c).toNat + 32) else lowerChar c) = lowerChar c
    rw [if_neg]
    intro hcon
    apply h
    have hc : lowerChar c = c := by
      unfold lowerChar
      rw [if_neg h]
    rw [hc] at hcon
    exact hcon

theorem lowerChar_ne_of_toNat_lt (c : Char) (d : Char) (hd : d.toNat < 97)
    (h : 'A' ≤ c ∧ c ≤ 'Z') : lowerChar c ≠ d := by
  obtain ⟨_, hlo, _⟩ := lowerChar_bounds c h
  intro he
  rw [he] at hlo
  omega

theorem lowerChar_isAuthority (c : Char) (h : isAuthorityChar c = true) :
    isAuthorityChar (lowerChar c) = true := by
  by_cases hc : 'A' ≤ c ∧ c ≤ 'Z'
  · simp only [isAuthorityChar, Bool.and_eq_true, decide_eq_true_eq]
    refine ⟨⟨?_, ?_⟩, ?_⟩
    · exact lowerChar_ne_of_toNat_lt c '/' (by decide) hc
    · exact lowerChar_ne_of_toNat_lt c '?' (by decide) hc
    · exact lowerChar_ne_of_toNat_lt c '#' (by decide) hc
  · have hid : lowerChar c = c := by
      unfold lowerChar
      rw [if_neg hc]
    rw [hid]
    exact h

theorem head_dropWhile_false (p : Char → Bool) :
    ∀ (l : List Char) (c : Char), (l.dropWhile p).head? = some c → p c = false := by
  intro l
  induction l with
  | nil => intro c h; cases h
  | cons a l ih =>
    intro c h
    rw [List.dropWhile_cons] at h
    by_cases ha : p a = true
    · rw [if_pos ha] at h
      exact ih c h
    · rw [if_neg ha] at h
      rw [List.head?_cons, Option.some.injEq] at h
      rw [← h]
      exact Bool.eq_false_iff.2 ha

theorem head_takeWhile (p : Char → Bool) :
    ∀ (l : List Char) (c : Char), (l.takeWhile p).head? = some c →
      l.head? = some c := by
  intro l
  induction l with
  | nil => intro c h; cases h
  | cons a l _ =>
    intro c h
    rw [List.takeWhile_cons] at h
    by_cases ha : p a = true
    · rw [if_pos ha] at h
      rw [List.head?_cons, Option.some.injEq] at h ⊢
      exact h
    · rw [if_neg ha] at h
      cases h

theorem mem_of_head? {α : Type} (l : List α) (c : α) (h : l.head? = some c) :
    c ∈ l := by
  cases l with
  | nil => cases h
  | cons a l =>
    rw [List.head?_cons, Option.some.injEq] at h
    rw [← h]
    exact List.mem_cons_self a l

/-- What the parser guarantees about a successfully parsed `http(s)` URL:
the shape on which serialization and re-parsing round-trip. -/
structure ValidSpecial (p : UrlParts) : Prop where
  scheme_special : p.scheme = "http".toList ∨ p.scheme = "https".toList
  host_ne : p.host ≠ []
  host_chars : ∀ c ∈ p.host, isAuthorityChar c = true
  host_lower : p.host.map lowerChar = p.host
  path_ne : p.pathname ≠ []
  path_head : p.pathname.head? = some '/'
  path_chars : ∀ c ∈ p.pathname, isPathChar c = true
  search_ok : p.search = [] ∨ (p.search.head? = some '?' ∧
    (∀ c ∈ p.search, c ≠ '#') ∧ p.search ≠ ['?'])

/-- The serialization `new URL(u).href`-style that `normalizeUrl` builds
before the trailing-slash adjustment: `scheme://host + pathname + search`. -/
def serializeParts (p : UrlParts) : List Char :=
  p.scheme ++ (':' :: '/' :: '/' :: []) ++ p.host ++ p.pathname ++ p.search

theorem takeWhile_all (p : Char → Bool) (l : List Char) (h : ∀ c ∈ l, p c = true) :
    l.takeWhile p = l :=
  List.takeWhile_eq_self_iff.mpr h

theorem parse_valid (l : List Char) (p : UrlParts) (hp : parseUrlChars l = some p)
    (hsp : isSpecialScheme p.scheme = true) : ValidSpecial p := by
  simp only [parseUrlChars] at hp
  split at hp
  · exact Option.noConfusion hp
  rename_i hform
  split at hp
  rotate_left
  · exact Option.noConfusion hp
  rename_i r hdrop
  split at hp
  rotate_left
  · rename_i hnsp
    split at hp
    · injection hp with hp
      subst hp
      exact absurd hsp hnsp
    · injection hp with hp
      subst hp
      exact absurd hsp hnsp
  rename_i hsp2
  split at hp
  · exact Option.noConfusion hp
  rename_i hauth
  injection hp with hp
  subst hp
  refine ⟨?_, ?_, ?_, ?_, ?_, ?_, ?_, ?_⟩
  · have := hsp2
    simp only [isSpecialScheme, Bool.or_eq_true, decide_eq_true_eq] at this
    exact this
  · dsimp only
    intro h
    exact hauth (List.map_eq_nil_iff.mp h)
  · dsimp only
    intro c hc
    obtain ⟨a, ha, rfl⟩ := List.mem_map.mp hc
    exact lowerChar_isAuthority a (List.mem_takeWhile_imp ha)
  · dsimp only
    rw [List.map_map]
    exact List.map_eq_map_iff.mpr (fun a _ => lowerChar_idem a)
  · dsimp only
    split
    · exact (by decide : (['/'] : List Char) ≠ [])
    · rename_i hpe
      exact hpe
  · dsimp only
    split
    · rfl
    · rename_i hpe
      obtain ⟨c, hc⟩ : ∃ c, (List.takeWhile isPathChar (List.dropWhile isAuthorityChar
          (List.dropWhile (fun c => decide (c = '/')) r))).head? = some c := by
        cases hw : List.takeWhile isPathChar (List.dropWhile isAuthorityChar
            (List.dropWhile (fun c => decide (c = '/')) r)) with
        | nil => exact absurd hw hpe
        | cons a t => exact ⟨a, rfl⟩
      have h1 := head_takeWhile isPathChar _ c hc
      have h2 := head_dropWhile_false isAuthorityChar _ c h1
      have h3 : isPathChar c = true :=
        List.mem_takeWhile_imp (mem_of_head? _ c hc)
      have hcs : c = '/' := by
        by_contra hne
        simp only [isPathChar, Bool.and_eq_true, decide_eq_true_eq] at h3
        have hca : isAuthorityChar c = true := by
          simp only [isAuthorityChar, Bool.and_eq_true, decide_eq_true_eq]
          exact ⟨⟨hne, h3.1⟩, h3.2⟩
        rw [h2] at hca
        exact Bool.noConfusion hca
      rw [hc, hcs]
  · dsimp only
    split
    · intro c hcm
      rw [List.mem_singleton] at hcm
      rw [hcm]
      decide
    · intro c hcm
      exact List.mem_takeWhile_imp hcm
  · dsimp only
    split
    · exact Or.inl rfl
    rename_i hq
    by_cases hse : List.takeWhile (fun c => decide (c ≠ '#')) (List.dropWhile isPathChar
        (List.dropWhile isAuthorityChar (List.dropWhile (fun c => decide (c = '/')) r))) = []
    · exact Or.inl hse
    refine Or.inr ⟨?_, ?_, hq⟩
    · obtain ⟨c, hc⟩ : ∃ c, (List.takeWhile (fun c => decide (c ≠ '#')) (List.dropWhile isPathChar
          (List.dropWhile isAuthorityChar (List.dropWhile (fun c => decide (c = '/')) r)))).head? =
          some c := by
        cases hw : List.takeWhile (fun c => decide (c ≠ '#')) (List.dropWhile isPathChar
            (List.dropWhile isAuthorityChar (List.dropWhile (fun c => decide (c = '/')) r))) with
        | nil => exact absurd hw hse
        | cons a t => exact ⟨a, rfl⟩
      have h1 := head_takeWhile (fun c => decide (c ≠ '#')) _ c hc
      have h2 := head_dropWhile_false isPathChar _ c h1
      have h3 := List.mem_takeWhile_imp (mem_of_head? _ c hc)
      have hcq : c = '?' := by
        by_contra hne
        have hcp : isPathChar c = true := by
          simp only [isPathChar, Bool.and_eq_true, decide_eq_true_eq]
          exact ⟨hne, of_decide_eq_true h3⟩
        rw [h2] at hcp
        exact Bool.noConfusion hcp
      rw [hc, hcq]
    · intro c hcm
      have h4 := List.mem_takeWhile_imp hcm
      exact of_decide_eq_true h4

theorem parse_special_http (T : List Char) :
    parseUrlChars ('h' :: 't' :: 't' :: 'p' :: ':' :: '/' :: '/' :: T) =
      (let r' := T.dropWhile (fun c => decide (c = '/'))
       let auth := r'.takeWhile isAuthorityChar
       if auth = [] then none else
       let rest1 := r'.dropWhile isAuthorityChar
       let path := rest1.takeWhile isPathChar
       let rest2 := rest1.dropWhile isPathChar
       let search := rest2.takeWhile (fun c => decide (c ≠ '#'))
       some { scheme := ['h', 't', 't', 'p'], host := auth.map lowerChar,
              pathname := if path = [] then ['/'] else path,
              search := if search = ['?'] then [] else search }) := rfl

theorem parse_special_https (T : List Char) :
    parseUrlChars ('h' :: 't' :: 't' :: 'p' :: 's' :: ':' :: '/' :: '/' :: T) =
      (let r' := T.dropWhile (fun c => decide (c = '/'))
       let auth := r'.takeWhile isAuthorityChar
       if auth = [] then none else
       let rest1 := r'.dropWhile isAuthorityChar
       let path := rest1.takeWhile isPathChar
       let rest2 := rest1.dropWhile isPathChar
       let search := rest2.takeWhile (fun c => decide (c ≠ '#'))
       some { scheme := ['h', 't', 't', 'p', 's'], host := auth.map lowerChar,
              pathname := if path = [] then ['/'] else path,
              search := if search = ['?'] then [] else search }) := rfl

theorem special_branch_eval (S : List Char) (p : UrlParts) (hv : ValidSpecial p)
    (hS : S = p.scheme) :
    (let r' := ((p.host ++ p.pathname) ++ p.search).dropWhile (fun c => decide (c = '/'))
     let auth := r'.takeWhile isAuthorityChar
     if auth = [] then none else
     let rest1 := r'.dropWhile isAuthorityChar
     let path := rest1.takeWhile isPathChar
     let rest2 := rest1.dropWhile isPathChar
     let search := rest2.takeWhile (fun c => decide (c ≠ '#'))
     some { scheme := S, host := auth.map lowerChar,
            pathname := if path = [] then ['/'] else path,
            search := if search = ['?'] then [] else search }) = some p := by
  obtain ⟨c0, h0, hh⟩ : ∃ c0 h0, p.host = c0 :: h0 := by
    cases hhc : p.host with
    | nil => exact absurd hhc hv.host_ne
    | cons a t => exact ⟨a, t, rfl⟩
  obtain ⟨path0, hpp⟩ : ∃ t, p.pathname = '/' :: t := by
    have hph := hv.path_head
    cases hpc : p.pathname with
    | nil => rw [hpc] at hph; exact Option.noConfusion hph
    | cons d t =>
      rw [hpc, List.head?_cons, Option.some.injEq] at hph
      exact ⟨t, by rw [← hph]⟩
  have hc0 : isAuthorityChar c0 = true :=
    hv.host_chars c0 (by rw [hh]; exact List.mem_cons_self c0 h0)
  have hc0s : ¬ ((fun c => decide (c = '/')) c0 = true) := by
    intro hcc
    have : c0 = '/' := of_decide_eq_true hcc
    rw [this] at hc0
    exact Bool.noConfusion hc0
  have hr' : ((p.host ++ p.pathname) ++ p.search).dropWhile (fun c => decide (c = '/')) =
      (p.host ++ p.pathname) ++ p.search := by
    rw [hh, List.cons_append, List.cons_append, List.dropWhile_cons, if_neg hc0s]
  have hauth : ((p.host ++ p.pathname) ++ p.search).takeWhile isAuthorityChar = p.host := by
    rw [List.append_assoc, List.takeWhile_append_of_pos hv.host_chars, hpp, List.cons_append,
      List.takeWhile_cons]
    rw [if_neg (by decide : ¬ (isAuthorityChar '/' = true))]
    exact List.append_nil p.host
  have hrest1 : ((p.host ++ p.pathname) ++ p.search).dropWhile isAuthorityChar =
      p.pathname ++ p.search := by
    rw [List.append_assoc, List.dropWhile_append_of_pos hv.host_chars, hpp, List.cons_append,
      List.dropWhile_cons]
    rw [if_neg (by decide : ¬ (isAuthorityChar '/' = true))]
  have hpath : (p.pathname ++ p.search).takeWhile isPathChar = p.pathname := by
    rw [List.takeWhile_append_of_pos hv.path_chars]
    rcases hv.search_ok with hse | ⟨hsh, _, _⟩
    · rw [hse]
      show p.pathname ++ [] = p.pathname
      exact List.append_nil p.pathname
    · obtain ⟨s0, hs0⟩ : ∃ t, p.search = '?' :: t := by
        cases hsc : p.search with
        | nil => rw [hsc] at hsh; exact Option.noConfusion hsh
        | cons d t =>
          rw [hsc, List.head?_cons, Option.some.injEq] at hsh
          exact ⟨t, by rw [← hsh]⟩
      rw [hs0, List.takeWhile_cons]
      rw [if_neg (by decide : ¬ (isPathChar '?' = true))]
      exact List.append_nil p.pathname
  have hrest2 : (p.pathname ++ p.search).dropWhile isPathChar = p.search := by
    rw [List.dropWhile_append_of_pos hv.path_chars]
    rcases hv.search_ok with hse | ⟨hsh, _, _⟩
    · rw [hse]
      rfl
    · obtain ⟨s0, hs0⟩ : ∃ t, p.search = '?' :: t := by
        cases hsc : p.search with
        | nil => rw [hsc] at hsh; exact Option.noConfusion hsh
        | cons d t =>
          rw [hsc, List.head?_cons, Option.some.injEq] at hsh
          exact ⟨t, by rw [← hsh]⟩
      rw [hs0, List.dropWhile_cons]
      rw [if_neg (by decide : ¬ (isPathChar '?' = true))]
  have hsearch : p.search.takeWhile (fun c => decide (c ≠ '#')) = p.search := by
    rcases hv.search_ok with hse | ⟨_, hsc, _⟩
    · rw [hse]
      rfl
    · exact takeWhile_all _ _ (fun c hcm => decide_eq_true (hsc c hcm))
  dsimp only
  rw [hr', hauth, if_neg hv.host_ne, hrest1, hpath, hrest2, hsearch, hv.host_lower,
    if_neg hv.path_ne, hS]
  rcases hv.search_ok with hse | ⟨_, _, hsq⟩
  · rw [if_neg (show ¬ (p.search = ['?']) from by rw [hse]; decide)]
  · rw [if_neg hsq]

theorem parse_roundtrip (p : UrlParts) (hv : ValidSpecial p) :
    parseUrlChars (serializeParts p) = some p := by
  rcases hv.scheme_special with hs | hs
  · have hser : serializeParts p =
        'h' :: 't' :: 't' :: 'p' :: ':' :: '/' :: '/' :: ((p.host ++ p.pathname) ++ p.search) := by
      unfold serializeParts
      rw [hs]
      rfl
    rw [hser, parse_special_http]
    exact special_branch_eval ['h', 't', 't', 'p'] p hv (by rw [hs]; rfl)
  · have hser : serializeParts p =
        'h' :: 't' :: 't' :: 'p' :: 's' :: ':' :: '/' :: '/' ::
          ((p.host ++ p.pathname) ++ p.search) := by
      unfold serializeParts
      rw [hs]
      rfl
    rw [hser, parse_special_https]
    exact special_branch_eval ['h', 't', 't', 'p', 's'] p hv (by rw [hs]; rfl)

theorem normalizeUrlChars_some (l : List Char) (p : UrlParts) (hp : parseUrlChars l = some p) :
    normalizeUrlChars l =
      (if ((p.scheme ++ (':' :: '/' :: '/' :: []) ++ p.host) ++ p.pathname).getLast? = some '/'
          ∧ (p.scheme ++ (':' :: '/' :: '/' :: []) ++ p.host) ++ p.pathname ≠
            (p.scheme ++ (':' :: '/' :: '/' :: []) ++ p.host) ++ ['/']
        then ((p.scheme ++ (':' :: '/' :: '/' :: []) ++ p.host) ++ p.pathname).dropLast
        else (p.scheme ++ (':' :: '/' :: '/' :: []) ++ p.host) ++ p.pathname) ++ p.search := by
  unfold normalizeUrlChars
  rw [hp]

theorem normalize_fixed (p : UrlParts) (hv : ValidSpecial p)
    (hend : p.pathname = ['/'] ∨ p.pathname.getLast? ≠ some '/') :
    normalizeUrlChars (serializeParts p) = serializeParts p := by
  rw [normalizeUrlChars_some (serializeParts p) p (parse_roundtrip p hv)]
  rw [if_neg]
  · rfl
  · intro hcon
    rcases hend with he | he
    · apply hcon.2
      rw [he]
    · apply he
      have h1 := hcon.1
      rw [List.getLast?_append_of_ne_nil _ hv.path_ne] at h1
      exact h1

theorem normalizeUrl_of_safe (s : String) (hsafe : idemSafe s = true) :
    ∃ t : List Char, normalizeUrl s = t.asString ∧ normalizeUrlChars t = t := by
  unfold idemSafe at hsafe
  cases hp : parseUrlChars s.toList with
  | none =>
    refine ⟨s.toList, ?_, ?_⟩
    · unfold normalizeUrl normalizeUrlChars
      rw [hp]
    · unfold normalizeUrlChars
      rw [hp]
  | some p =>
    rw [hp] at hsafe
    dsimp only at hsafe
    rw [Bool.and_eq_true] at hsafe
    have hsp : isSpecialScheme p.scheme = true := hsafe.1
    have hns : ¬ (['/', '/'] <:+ p.pathname) := by
      have h2 := hsafe.2
      rw [Bool.not_eq_true'] at h2
      intro hcon
      have h3 : List.isSuffixOf ['/', '/'] p.pathname = true := by
        rw [List.isSuffixOf_iff_suffix]
        exact hcon
      rw [h2] at h3
      exact Bool.noConfusion h3
    have hv : ValidSpecial p := parse_valid s.toList p hp hsp
    have hnc := normalizeUrlChars_some s.toList p hp
    by_cases hstrip : ((p.scheme ++ (':' :: '/' :: '/' :: []) ++ p.host) ++ p.pathname).getLast? =
        some '/' ∧ (p.scheme ++ (':' :: '/' :: '/' :: []) ++ p.host) ++ p.pathname ≠
        (p.scheme ++ (':' :: '/' :: '/' :: []) ++ p.host) ++ ['/']
    · rw [if_pos hstrip] at hnc
      rw [List.dropLast_append_of_ne_nil _ hv.path_ne] at hnc
      have hpl : p.pathname.getLast? = some '/' := by
        have h1 := hstrip.1
        rw [List.getLast?_append_of_ne_nil _ hv.path_ne] at h1
        exact h1
      have hsplit : p.pathname.dropLast ++ ['/'] = p.pathname :=
        List.dropLast_append_getLast? '/' hpl
      have hpn1 : p.pathname ≠ ['/'] := fun hcon => hstrip.2 (by rw [hcon])
      have hqne : p.pathname.dropLast ≠ [] := by
        intro hcon
        apply hpn1
        rw [← hsplit, hcon]
        rfl
      have hqlast : p.pathname.dropLast.getLast? ≠ some '/' := by
        intro hcon
        apply hns
        have h2 : p.pathname.dropLast.dropLast ++ ['/'] = p.pathname.dropLast :=
          List.dropLast_append_getLast? '/' hcon
        have h4 : p.pathname.dropLast.dropLast ++ ['/', '/'] = p.pathname := by
          rw [show (['/', '/'] : List Char) = ['/'] ++ ['/'] from rfl, ← List.append_assoc,
            h2, hsplit]
        exact ⟨p.pathname.dropLast.dropLast, h4⟩
      have hqhead : p.pathname.dropLast.head? = some '/' := by
        have h1 := hv.path_head
        rw [← hsplit, List.head?_append_of_ne_nil _ hqne] at h1
        exact h1
      have hqchars : ∀ c ∈ p.pathname.dropLast, isPathChar c = true := fun c hc =>
        hv.path_chars c (by rw [← hsplit]; exact List.mem_append_left _ hc)
      have hv2 : ValidSpecial ⟨p.scheme, p.host, p.pathname.dropLast, p.search⟩ :=
        ⟨hv.scheme_special, hv.host_ne, hv.host_chars, hv.host_lower, hqne, hqhead, hqchars,
          hv.search_ok⟩
      refine ⟨serializeParts ⟨p.scheme, p.host, p.pathname.dropLast, p.search⟩, ?_, ?_⟩
      · unfold normalizeUrl
        rw [hnc]
        rfl
      · exact normalize_fixed _ hv2 (Or.inr hqlast)
    · rw [if_neg hstrip] at hnc
      refine ⟨serializeParts p, ?_, ?_⟩
      · unfold normalizeUrl
        rw [hnc]
        rfl
      · apply normalize_fixed p hv
        by_cases hroot : (p.scheme ++ (':' :: '/' :: '/' :: []) ++ p.host) ++ p.pathname =
            (p.scheme ++ (':' :: '/' :: '/' :: []) ++ p.host) ++ ['/']
        · exact Or.inl (List.append_cancel_left hroot)
        · refine Or.inr ?_
          intro hple
          apply hstrip
          refine ⟨?_, hroot⟩
          rw [List.getLast?_append_of_ne_nil _ hv.path_ne]
          exact hple

/-- C9 counterexample: `normalizeUrl` is not idempotent on every string.
A path ending in a double slash loses one slash per application:
`https://x.com/a//` normalizes to `https://x.com/a/`, which normalizes
again to `https://x.com/a`. -/
theorem c9_double_slash_not_idempotent_ctrex :
    normalizeUrl (normalizeUrl "https://x.com/a//") ≠ normalizeUrl "https://x.com/a//" := by
  decide

/-- C9 (amended): `normalizeUrl` is idempotent on every string that either
fails to parse (and is returned verbatim) or parses as an `http(s)` URL
whose path does not end in a double slash (`idemSafe`); and the claim's two
concrete examples hold: `https://x.com/a/` and `https://x.com/a` normalize
to the same string, and the bare-host root `https://x.com/` keeps its
trailing slash. -/
theorem c9_normalize_idempotent_on_safe :
    (∀ s : String, idemSafe s = true → normalizeUrl (normalizeUrl s) = normalizeUrl s) ∧
    normalizeUrl "https://x.com/a/" = normalizeUrl "https://x.com/a" ∧
    normalizeUrl "https://x.com/" = "https://x.com/" := by
  refine ⟨?_, by decide, by decide⟩
  intro s hsafe
  obtain ⟨t, ht, hfix⟩ := normalizeUrl_of_safe s hsafe
  rw [ht]
  unfold normalizeUrl
  rw [toList_asString, hfix]

/-- C9 witness: the amended theorem applied at `https://x.com/a`, a safe
input on which `normalizeUrl` is a fixed point. -/
theorem c9_normalize_idempotent_on_safe_witness :
    idemSafe "https://x.com/a" = true ∧
    normalizeUrl (normalizeUrl "https://x.com/a") = normalizeUrl "https://x.com/a" :=
  ⟨by decide, c9_normalize_idempotent_on_safe.1 "https://x.com/a" (by decide)⟩

end SiteScraper
